import Mathlib

/-!
Verification of the core tree-rendering algorithm of the `ascii_tree`
repository (`src/ascii_tree/tree_gen.py`, with the symbol sets of
`src/ascii_tree/config.py`).

Shallow embedding conventions:
* Python strings that hold connector prefixes are modelled as `List Char`
  (`Str`); Python slicing `s[:-SYMBOL_LEN]` becomes `List.take (s.length - 4)`,
  `str.startswith` / `str.endswith` become `List.isPrefixOf` / `List.isSuffixOf`.
* Filesystem paths are modelled as their segment lists (`pathlib.Path.parts`);
  `Path.parent` is `List.dropLast` (valid for every path that has a component
  to drop, i.e. every path except the filesystem anchor `/` itself, which the
  renderer is never run on in these claims) and `Path.name` is the last
  segment.
* A directory tree on disk is the inductive `FSTree`; `os.walk` with its
  top-down in-place pruning of `dirs` is the recursive walker `popT`/`popF`.
* The glob-to-regex pattern compilation of `Filters` is out of scope (spec §6
  treats filters as name predicates), so compiled include/exclude regexes are
  modelled as optional Boolean predicates, exactly as `do_filter` consumes
  them.
* `dict[Path, Node]` (insertion ordered, unique keys) is a `List Node` in
  walk order; dict lookup is `nfind`, in-place value mutation is `nupd`.
  `sys.exit` / raised `ValueError` become `Option` / `Except`.
* The enum `Symbol` of tree_gen.py is the Unicode symbol set; functions are
  parametrised by a `SymSet` so that `config.py`'s `AsciiSymbols` can be
  substituted, which claim C6 is about.  Names ending in the word that the
  source spells `..._prefix` are rendered `..._pfx`.
-/

/-- Connector prefix strings, modelled as Python character sequences. -/
abbrev Str := List Char

/-- `SYMBOL_LEN = 4`: the length of all prefix symbols (tree_gen.py). -/
def SYMBOL_LEN : Nat := 4

/-- A symbol set: the four fixed-width connectors plus the directory marker.
Mirrors the enums `Symbol` (tree_gen.py) / `UnicodeSymbols` / `AsciiSymbols`
(config.py). -/
structure SymSet where
  INDENT : Str
  CONTINUE : Str
  BRANCH : Str
  FINAL : Str
  DIR : Str
deriving DecidableEq

/-- `Symbol` of tree_gen.py: the Unicode box-drawing connectors (the name
`Symbol` itself is taken by Mathlib). -/
def SymbolU : SymSet :=
  ⟨"    ".toList, "│   ".toList, "├── ".toList, "└── ".toList, "/".toList⟩

/-- `UnicodeSymbols` of config.py (identical values to `Symbol`). -/
def UnicodeSymbols : SymSet := SymbolU

/-- `AsciiSymbols` of config.py.  Note `BRANCH` and `FINAL` share the glyph
`"+-- "`. -/
def AsciiSymbols : SymSet :=
  ⟨"    ".toList, "|   ".toList, "+-- ".toList, "+-- ".toList, "/".toList⟩

/-- `replace_leading_symbol(prefix, new_symbol, match_symbol)` of tree_gen.py.
The test is on the *leading* segment (`startswith`) but the replacement slice
`prefix[:-SYMBOL_LEN] + new_symbol.value` rewrites the *trailing* segment —
translated exactly as written. -/
def replace_leading_symbol (pfx new_symbol match_symbol : Str) : Str :=
  if match_symbol.isPrefixOf pfx then
    pfx.take (pfx.length - SYMBOL_LEN) ++ new_symbol
  else
    pfx

/-- `replace_trailing_symbol(prefix, new_symbol, match_symbol)` of tree_gen.py. -/
def replace_trailing_symbol (pfx new_symbol match_symbol : Str) : Str :=
  if match_symbol.isSuffixOf pfx then
    pfx.take (pfx.length - SYMBOL_LEN) ++ new_symbol
  else
    pfx

/-- `transform_trailing_prefix` of tree_gen.py: trailing `BRANCH` becomes
`CONTINUE`, then trailing `FINAL` becomes `INDENT`. -/
def transform_trailing_pfx (S : SymSet) (pfx : Str) : Str :=
  replace_trailing_symbol (replace_trailing_symbol pfx S.CONTINUE S.BRANCH)
    S.INDENT S.FINAL

/-- One directory record: the `Node` dataclass of tree_gen.py.
`path` is the segment list of `dir_path`, `name` is `dir_path.name`,
`pfx` is the `prefix` field (default `''`). -/
structure Node where
  path : List String
  dirs : List String
  files : List String
  depth : Nat
  pfx : Str
  name : String
deriving DecidableEq

/-- Functional stand-in for the in-place mutation `node.dirs = d`. -/
def setDirs (n : Node) (d : List String) : Node :=
  ⟨n.path, d, n.files, n.depth, n.pfx, n.name⟩

/-- Functional stand-in for the in-place mutation `node.prefix = p`. -/
def setPfx (n : Node) (p : Str) : Node :=
  ⟨n.path, n.dirs, n.files, n.depth, p, n.name⟩

/-- `transform_prefix(parent)` of tree_gen.py: trailing transform, the
(misdirected) leading-symbol call, then the appended connector chosen by
`parent.dirs or parent.files`. -/
def transform_pfx (S : SymSet) (parent : Node) : Str :=
  (replace_leading_symbol (transform_trailing_pfx S parent.pfx)
      S.CONTINUE S.BRANCH) ++
    (if parent.dirs ≠ [] ∨ parent.files ≠ [] then S.BRANCH else S.FINAL)

/-- A directory on disk: its name, subdirectories and file names. -/
inductive FSTree where
  | node (name : String) (subdirs : List FSTree) (files : List String)

def FSTree.name : FSTree → String
  | .node n _ _ => n

def FSTree.subdirs : FSTree → List FSTree
  | .node _ s _ => s

def FSTree.files : FSTree → List String
  | .node _ _ f => f

/-- Compiled include/exclude filters, at the predicate level that
`do_filter` consumes (`None` ⇒ no constraint).  Pattern compilation is an
out-of-scope collaborator (spec §6). -/
structure Filters where
  include_files : Option (String → Bool)
  exclude_files : Option (String → Bool)
  include_dirs : Option (String → Bool)
  exclude_dirs : Option (String → Bool)

/-- A filter object with no patterns at all. -/
def noFilters : Filters := ⟨none, none, none, none⟩

/-- The keep-predicate of `Tree.do_filter`:
`(not include_re or include_re.match(i)) and (not exclude_re or not exclude_re.match(i))`. -/
def keepItem (include_re exclude_re : Option (String → Bool)) (i : String) : Bool :=
  (match include_re with
    | none => true
    | some r => r i)
  && (match exclude_re with
    | none => true
    | some r => !(r i))

/-- `Tree.do_filter` of tree_gen.py. -/
def do_filter (items : List String) (include_re exclude_re : Option (String → Bool)) :
    List String :=
  items.filter (keepItem include_re exclude_re)

/-- Stable insertion into a sorted list of strings (the effect of Python's
stable `sorted` on names, which are unique per directory). -/
def insertStr (a : String) : List String → List String
  | [] => [a]
  | b :: bs => if a ≤ b then a :: b :: bs else b :: insertStr a bs

/-- Lexicographic sort of name lists, modelling Python `sorted`. -/
def sortStrs : List String → List String
  | [] => []
  | a :: as => insertStr a (sortStrs as)

/-- `Tree.filter_files` of tree_gen.py. -/
def filter_files (fl : Filters) (files : List String) : List String :=
  sortStrs (do_filter files fl.include_files fl.exclude_files)

/-- `Tree.filter_dirs` of tree_gen.py. -/
def filter_dirs (fl : Filters) (dirs : List String) : List String :=
  sortStrs (do_filter dirs fl.include_dirs fl.exclude_dirs)

/-- Insertion by name into a list of subtrees. -/
def insertTree (c : FSTree) : List FSTree → List FSTree
  | [] => [c]
  | d :: ds => if c.name ≤ d.name then c :: d :: ds else d :: insertTree c ds

/-- Sort subtrees by name. -/
def sortTrees : List FSTree → List FSTree
  | [] => []
  | c :: cs => insertTree c (sortTrees cs)

/-- The subtrees `os.walk` descends into after
`dirs[:] = self.filter_dirs(dirs)`: the kept children in ascending name
order. -/
def keptTrees (fl : Filters) (subs : List FSTree) : List FSTree :=
  sortTrees (subs.filter (fun c => keepItem fl.include_dirs fl.exclude_dirs c.name))

/-- `Path.parent` at the segment level. -/
def parentPath (p : List String) : List String := p.dropLast

/-- `Path.name` at the segment level. -/
def lastName (p : List String) : String := p.getLastD ""

theorem sizeOf_insertTree (c : FSTree) (l : List FSTree) :
    sizeOf (insertTree c l) = 1 + sizeOf c + sizeOf l := by
  induction l with
  | nil => simp [insertTree]
  | cons d ds ih =>
      simp only [insertTree]
      by_cases h : c.name ≤ d.name
      · simp only [if_pos h, List.cons.sizeOf_spec]
      · simp only [if_neg h, List.cons.sizeOf_spec, ih]
        omega

theorem sizeOf_sortTrees (l : List FSTree) :
    sizeOf (sortTrees l) = sizeOf l := by
  induction l with
  | nil => simp [sortTrees]
  | cons c cs ih => simp [sortTrees, sizeOf_insertTree, ih]

theorem sizeOf_filterTrees (p : FSTree → Bool) (l : List FSTree) :
    sizeOf (l.filter p) ≤ sizeOf l := by
  induction l with
  | nil => simp
  | cons c cs ih =>
      rw [List.filter_cons]
      split <;> simp only [List.cons.sizeOf_spec] <;> omega

theorem sizeOf_subdirs_lt (t : FSTree) : sizeOf t.subdirs < sizeOf t := by
  cases t with
  | node n subs files =>
      simp only [FSTree.subdirs, FSTree.node.sizeOf_spec]
      omega

theorem sizeOf_keptTrees (fl : Filters) (subs : List FSTree) :
    sizeOf (keptTrees fl subs) ≤ sizeOf subs := by
  unfold keptTrees
  rw [sizeOf_sortTrees]
  exact sizeOf_filterTrees _ subs

/-- A tree of records mirroring the directory structure: used both for the
records that `Tree.populate` creates and for the reference final records. -/
inductive NTree where
  | mk (nd : Node) (kids : List NTree)

def NTree.nd : NTree → Node
  | .mk r _ => r

def NTree.kids : NTree → List NTree
  | .mk _ k => k

mutual

/-- Pre-order flattening of a record tree (dict insertion order). -/
def NTree.flat : NTree → List Node
  | .mk r cs => r :: flatF cs

def flatF : List NTree → List Node
  | [] => []
  | c :: cs => NTree.flat c ++ flatF cs

end

mutual

/-- `Tree.populate` as a recursive walk: one record per visited directory,
with `dirs` the filtered+sorted child names (the in-place `dirs[:] = ...`),
`files` the filtered+sorted file names, `depth = len(parts) - root_depth`,
and the default empty prefix.  Descent follows the kept names in sorted
order, as `os.walk` does after the in-place pruning. -/
def popT (fl : Filters) (rd : Nat) (path : List String) (t : FSTree) : NTree :=
  .mk ⟨path, filter_dirs fl (t.subdirs.map FSTree.name),
        filter_files fl t.files, path.length - rd, [], lastName path⟩
    (popF fl rd path (keptTrees fl t.subdirs))
termination_by sizeOf t
decreasing_by
  simp_wf
  have h1 := sizeOf_keptTrees fl t.subdirs
  have h2 := sizeOf_subdirs_lt t
  omega

def popF (fl : Filters) (rd : Nat) (ppath : List String) (l : List FSTree) :
    List NTree :=
  match l with
  | [] => []
  | c :: cs => popT fl rd (ppath ++ [c.name]) c :: popF fl rd ppath cs
termination_by sizeOf l

end

/-- The record collection `self.nodes` after `Tree.populate`. -/
def populate (fl : Filters) (top : List String) (t : FSTree) : List Node :=
  (popT fl top.length top t).flat

/-- Dict lookup `self.nodes[p]` (keys are unique paths). -/
def nfind (st : List Node) (p : List String) : Option Node :=
  st.find? (fun n => n.path = p)

/-- Dict value mutation at key `p`. -/
def nupd (st : List Node) (p : List String) (f : Node → Node) : List Node :=
  st.map (fun n => if n.path = p then f n else n)

/-- `str(dir_path)` for the error message (POSIX rendering). -/
def pathStr (p : List String) : String := String.intercalate "/" p

/-- The message of the `ValueError` raised by `Tree.prefix_nodes`. -/
def errMsg (p : List String) : String :=
  "Parent of " ++ pathStr p ++ " cannot be accessed."

/-- The loop body of `Tree.prefix_nodes`, iterating over the (fixed) dict
keys in insertion order.  For each record: look up the parent record by
`dir_path.parent`; on failure, the top-level record is skipped (`continue`)
and any other record raises `ValueError`.  On success the record's own name
is removed from the parent's `dirs` worklist (`list.remove`, first
occurrence, recoverable no-op here via `List.erase` when absent) and the
record's prefix is set from the *updated* parent.  The transform is a
parameter `tf` so the same loop can also be run with the spec's simplified
transform (claim C9); the program instantiates `tf := transform_pfx S`. -/
def pfxLoopGen (tf : Node → Str) (top : List String) (st : List Node) :
    List (List String) → Except String (List Node)
  | [] => .ok st
  | p :: rest =>
    match nfind st p with
    | none => .ok st
    | some node =>
      match nfind st (parentPath p) with
      | none =>
        if p = top then pfxLoopGen tf top st rest
        else .error (errMsg p)
      | some parent =>
        let parent2 := setDirs parent (parent.dirs.erase node.name)
        let st2 := nupd st parent.path (fun _ => parent2)
        let st3 := nupd st2 p (fun m => setPfx m (tf parent2))
        pfxLoopGen tf top st3 rest

/-- `Tree.prefix_nodes` (composed with `Tree.populate`, as `Tree.__init__`
runs them): assign a visual prefix to every record. -/
def prefix_nodes (S : SymSet) (fl : Filters) (top : List String) (t : FSTree) :
    Except String (List Node) :=
  pfxLoopGen (transform_pfx S) top (populate fl top t)
    ((populate fl top t).map (fun n => n.path))

/-- `append_file_lines(file_lines, node)` of tree_gen.py.  `None` models the
`IndexError` → `sys.exit(1)` branch for an empty file list. -/
def append_file_lines (S : SymSet) (lines : List Str) (node : Node) :
    Option (List Str) :=
  match node.files.getLast? with
  | none => none
  | some last =>
    some (lines ++
      node.files.dropLast.map
        (fun f => transform_trailing_pfx S node.pfx ++ S.BRANCH ++ f.toList) ++
      [transform_trailing_pfx S node.pfx ++ S.FINAL ++ last.toList])

/-- The directory line `f"{node.prefix}{node.name}{Symbol.DIR.value}"`. -/
def dirLine (S : SymSet) (n : Node) : Str :=
  n.pfx ++ n.name.toList ++ S.DIR

/-- The inner `while stack and stack[-1].depth >= node.depth` loop of
`Tree.__str__` (stack top is the list head here). -/
def flushGE (S : SymSet) (d : Nat) :
    List Node → List Str → Option (List Node × List Str)
  | [], out => some ([], out)
  | p :: st, out =>
    if d ≤ p.depth then
      match append_file_lines S out p with
      | none => none
      | some out2 => flushGE S d st out2
    else
      some (p :: st, out)

/-- The final `while stack` flush of `Tree.__str__`. -/
def flushAll (S : SymSet) : List Node → List Str → Option (List Str)
  | [], out => some out
  | p :: st, out =>
    match append_file_lines S out p with
    | none => none
    | some out2 => flushAll S st out2

/-- The main loop of `Tree.__str__` over the prefixed records. -/
def treeGo (S : SymSet) : List Node → List Node → List Str → Option (List Str)
  | [], stack, out => flushAll S stack out
  | n :: rest, stack, out =>
    match flushGE S n.depth stack out with
    | none => none
    | some (stack2, out2) =>
      treeGo S rest (if n.files ≠ [] then n :: stack2 else stack2)
        (out2 ++ [dirLine S n])

/-- `Tree.__str__`: the ordered output lines (the caller newline-joins
them); `none` is the `sys.exit(1)` path. -/
def treeStr (S : SymSet) (nodes : List Node) : Option (List Str) :=
  treeGo S nodes [] []

mutual

/-- Name-uniqueness of siblings, true on a real filesystem: the walked
directory has no two children with the same name, recursively. -/
def uniqT : FSTree → Bool
  | .node _ subs _ => decide (subs.map FSTree.name).Nodup && uniqF subs

def uniqF : List FSTree → Bool
  | [] => true
  | c :: cs => uniqT c && uniqF cs

end

mutual

/-- Reference final record tree: the fixed point of the prefix-assignment
loop, computed by structural recursion.  The record at `path` carries prefix
`myPfx` and an exhausted (empty) `dirs` worklist; the k-th kept child's
prefix is `tf` applied to the parent as the loop sees it at that step
(worklist = the names after the child's own, prefix already `myPfx`). -/
def refT (tf : Node → Str) (fl : Filters) (rd : Nat) (path : List String)
    (myPfx : Str) (t : FSTree) : NTree :=
  .mk ⟨path, [], filter_files fl t.files, path.length - rd, myPfx, lastName path⟩
    (refF tf fl rd path myPfx (filter_files fl t.files) (keptTrees fl t.subdirs))
termination_by sizeOf t
decreasing_by
  simp_wf
  have h1 := sizeOf_keptTrees fl t.subdirs
  have h2 := sizeOf_subdirs_lt t
  omega

def refF (tf : Node → Str) (fl : Filters) (rd : Nat) (ppath : List String)
    (ppfx : Str) (pfiles : List String) (l : List FSTree) : List NTree :=
  match l with
  | [] => []
  | c :: cs =>
    refT tf fl rd (ppath ++ [c.name])
      (tf ⟨ppath, cs.map FSTree.name, pfiles, ppath.length - rd, ppfx,
            lastName ppath⟩) c
    :: refF tf fl rd ppath ppfx pfiles cs
termination_by sizeOf l

end

/-- The lines that one flush of `append_file_lines` adds for a record. -/
def fileBlock (S : SymSet) (n : Node) : List Str :=
  n.files.dropLast.map
    (fun f => transform_trailing_pfx S n.pfx ++ S.BRANCH ++ f.toList) ++
  (match n.files.getLast? with
    | none => []
    | some last => [transform_trailing_pfx S n.pfx ++ S.FINAL ++ last.toList])

/-- File lines added by flushing a stack segment in pop order. -/
def blocksOf (S : SymSet) : List Node → List Str
  | [] => []
  | p :: ps => fileBlock S p ++ blocksOf S ps

mutual

/-- Reference output: for each directory its own line, then the lines of its
kept subdirectory subtrees in order, then its file lines. -/
def NTree.lines (S : SymSet) : NTree → List Str
  | .mk r cs => dirLine S r :: (linesF S cs ++ fileBlock S r)

def linesF (S : SymSet) : List NTree → List Str
  | [] => []
  | c :: cs => NTree.lines S c ++ linesF S cs

end

mutual

/-- The stack segment a subtree's records leave behind in `Tree.__str__`:
the pending chain along the last-child spine, deepest (most recently
pushed) first. -/
def pend : NTree → List Node
  | .mk r cs => pendF cs ++ (if r.files ≠ [] then [r] else [])

def pendF : List NTree → List Node
  | [] => []
  | [c] => pend c
  | _ :: c :: cs => pendF (c :: cs)

end

mutual

/-- The output lines a subtree's records produce while being processed
(its full reference lines minus the file blocks still pending on the
stack at the end of its record range). -/
def emitted (S : SymSet) : NTree → List Str
  | .mk r cs => dirLine S r :: emittedF S cs

def emittedF (S : SymSet) : List NTree → List Str
  | [] => []
  | [c] => emitted S c
  | c :: c2 :: cs => NTree.lines S c ++ emittedF S (c2 :: cs)

end

mutual

/-- Each child record is exactly one level deeper than its parent record. -/
def depthOk : NTree → Bool
  | .mk r cs => depthF r.depth cs

def depthF (d : Nat) : List NTree → Bool
  | [] => true
  | c :: cs => (c.nd.depth == d + 1) && depthOk c && depthF d cs

end

/-- The simplified prefix derivation that claim C9 compares against,
following the spec's words: rewrite only the trailing segment of the
parent's prefix, then append the connector — no leading-symbol step. -/
def transform_pfx_spec (S : SymSet) (parent : Node) : Str :=
  transform_trailing_pfx S parent.pfx ++
    (if parent.dirs ≠ [] ∨ parent.files ≠ [] then S.BRANCH else S.FINAL)

/-- The prefix-assignment pass run with the simplified derivation. -/
def prefix_nodes_spec (S : SymSet) (fl : Filters) (top : List String)
    (t : FSTree) : Except String (List Node) :=
  pfxLoopGen (transform_pfx_spec S) top (populate fl top t)
    ((populate fl top t).map (fun n => n.path))

/-- The record `Tree.populate` creates for a directory. -/
def popRec (fl : Filters) (rd : Nat) (path : List String) (t : FSTree) : Node :=
  ⟨path, filter_dirs fl (t.subdirs.map FSTree.name), filter_files fl t.files,
    path.length - rd, [], lastName path⟩

/-- A parent record as the prefix loop sees it: prefix assigned, `dirs`
worklist holding the still-unvisited child names. -/
def parentRec (rd : Nat) (pp : List String) (ppfx : Str) (pfiles : List String)
    (names : List String) : Node :=
  ⟨pp, names, pfiles, pp.length - rd, ppfx, lastName pp⟩

/-- The finished record of a directory: prefix assigned, worklist empty. -/
def refRec (fl : Filters) (rd : Nat) (path : List String) (myPfx : Str)
    (t : FSTree) : Node :=
  ⟨path, [], filter_files fl t.files, path.length - rd, myPfx, lastName path⟩

/-- All four connectors of a symbol set have the fixed width. -/
def symLen4 (S : SymSet) : Prop :=
  S.INDENT.length = SYMBOL_LEN ∧ S.CONTINUE.length = SYMBOL_LEN ∧
    S.BRANCH.length = SYMBOL_LEN ∧ S.FINAL.length = SYMBOL_LEN

/-- The shape of every connector prefix the Unicode renderer produces:
empty (the root), a single `BRANCH`/`FINAL` segment (depth 1), or at least
two segments with the leading one `CONTINUE` or `INDENT`. -/
def goodPfx (s : Str) : Prop :=
  s = [] ∨
    (s = SymbolU.BRANCH ∨ s = SymbolU.FINAL) ∨
    (8 ≤ s.length ∧ (s.take 4 = SymbolU.CONTINUE ∨ s.take 4 = SymbolU.INDENT))

/-- Concrete directory trees used by the closed instances below. -/
def tW : FSTree := .node "r" [] []

/-- A three-deep chain of single directories. -/
def tCh : FSTree := .node "r" [.node "a" [.node "b" [] []] []] []

/-- A single directory holding two (unsorted) files. -/
def tF : FSTree := .node "r" [] ["b.txt", "a.txt"]

theorem insertStr_perm (a : String) (l : List String) :
    List.Perm (insertStr a l) (a :: l) := by
  induction l with
  | nil => simp [insertStr]
  | cons b bs ih =>
      simp only [insertStr]
      by_cases h : a ≤ b
      · simp [h]
      · rw [if_neg h]
        exact ((ih.cons b).trans (List.Perm.swap a b bs))

theorem sortStrs_perm (l : List String) : List.Perm (sortStrs l) l := by
  induction l with
  | nil => simp [sortStrs]
  | cons a as ih =>
      simp only [sortStrs]
      exact (insertStr_perm a (sortStrs as)).trans (ih.cons a)

theorem insertTree_perm (c : FSTree) (l : List FSTree) :
    List.Perm (insertTree c l) (c :: l) := by
  induction l with
  | nil => simp [insertTree]
  | cons d ds ih =>
      simp only [insertTree]
      by_cases h : c.name ≤ d.name
      · simp [h]
      · rw [if_neg h]
        exact ((ih.cons d).trans (List.Perm.swap c d ds))

theorem sortTrees_perm (l : List FSTree) : List.Perm (sortTrees l) l := by
  induction l with
  | nil => simp [sortTrees]
  | cons c cs ih =>
      simp only [sortTrees]
      exact (insertTree_perm c (sortTrees cs)).trans (ih.cons c)

theorem mem_keptTrees {fl : Filters} {subs : List FSTree} {c : FSTree}
    (h : c ∈ keptTrees fl subs) : c ∈ subs := by
  unfold keptTrees at h
  have := (sortTrees_perm _).mem_iff.mp h
  exact List.mem_of_mem_filter this

theorem map_name_insertTree (c : FSTree) (l : List FSTree) :
    (insertTree c l).map FSTree.name = insertStr c.name (l.map FSTree.name) := by
  induction l with
  | nil => simp [insertTree, insertStr]
  | cons d ds ih =>
      simp only [insertTree, insertStr]
      by_cases h : c.name ≤ d.name
      · simp [h]
      · simp [h, ih]

theorem map_name_sortTrees (l : List FSTree) :
    (sortTrees l).map FSTree.name = sortStrs (l.map FSTree.name) := by
  induction l with
  | nil => simp [sortTrees, sortStrs]
  | cons c cs ih =>
      simp only [sortTrees, sortStrs, List.map_cons]
      rw [map_name_insertTree, ih]

/-- Fidelity of the walker's descent list: the names of the kept subtrees
are exactly `filter_dirs` applied to the child-name list, as the source
computes it. -/
theorem keptTrees_names (fl : Filters) (subs : List FSTree) :
    (keptTrees fl subs).map FSTree.name = filter_dirs fl (subs.map FSTree.name) := by
  unfold keptTrees filter_dirs do_filter
  rw [map_name_sortTrees]
  congr 1
  induction subs with
  | nil => simp
  | cons c cs ih =>
      rw [List.map_cons, List.filter_cons, List.filter_cons]
      by_cases h : keepItem fl.include_dirs fl.exclude_dirs c.name
      · simp only [h, if_true, List.map_cons, ih]
      · simpa [h] using ih

theorem nfind_append (l1 l2 : List Node) (p : List String) :
    nfind (l1 ++ l2) p = ((nfind l1 p).orElse (fun _ => nfind l2 p)) := by
  unfold nfind
  induction l1 with
  | nil => simp
  | cons n ns ih =>
      by_cases h : n.path = p
      · simp [List.find?_cons, h]
      · simp only [List.cons_append, List.find?_cons]
        simp only [decide_eq_true_eq] at *
        simp [h, ih]

theorem nfind_eq_none {l : List Node} {p : List String}
    (h : ∀ n ∈ l, n.path ≠ p) : nfind l p = none := by
  unfold nfind
  rw [List.find?_eq_none]
  intro n hn
  simpa using h n hn

theorem nfind_some {l : List Node} {p : List String} {n : Node}
    (h : nfind l p = some n) : n ∈ l ∧ n.path = p := by
  unfold nfind at h
  refine ⟨List.mem_of_find?_eq_some h, ?_⟩
  have := List.find?_some h
  simpa using this

theorem nupd_append (l1 l2 : List Node) (p : List String) (f : Node → Node) :
    nupd (l1 ++ l2) p f = nupd l1 p f ++ nupd l2 p f := by
  unfold nupd
  exact List.map_append _ l1 l2

theorem nupd_not_mem {l : List Node} {p : List String} (f : Node → Node)
    (h : ∀ n ∈ l, n.path ≠ p) : nupd l p f = l := by
  unfold nupd
  induction l with
  | nil => simp
  | cons n ns ih =>
      simp only [List.map_cons]
      rw [if_neg (h n (List.mem_cons_self n ns)), ih]
      intro m hm
      exact h m (List.mem_cons_of_mem n hm)

theorem nupd_map_path {l : List Node} {p : List String} {f : Node → Node}
    (hf : ∀ n, n.path = p → (f n).path = n.path) :
    (nupd l p f).map (fun n => n.path) = l.map (fun n => n.path) := by
  unfold nupd
  induction l with
  | nil => simp
  | cons n ns ih =>
      simp only [List.map_cons, ih]
      by_cases h : n.path = p
      · simp [h, hf n h]
      · simp [h]

theorem nfind_nupd_self {l : List Node} {p : List String} {n : Node}
    {f : Node → Node} (hf : ∀ m, m.path = p → (f m).path = m.path)
    (h : nfind l p = some n) : nfind (nupd l p f) p = some (f n) := by
  unfold nfind nupd at *
  induction l with
  | nil => simp at h
  | cons m ms ih =>
      by_cases hm : m.path = p
      · rw [List.find?_cons_of_pos _ (by simpa using hm)] at h
        cases h
        simp only [List.map_cons, if_pos hm]
        rw [List.find?_cons_of_pos _ (by simp [hf _ hm, hm])]
      · rw [List.find?_cons_of_neg _ (by simpa using hm)] at h
        simp only [List.map_cons, if_neg hm]
        rw [List.find?_cons_of_neg _ (by simpa using hm)]
        exact ih h

theorem nfind_nupd_other {l : List Node} {p q : List String}
    {f : Node → Node} (hf : ∀ m, m.path = p → (f m).path = m.path)
    (hpq : q ≠ p) :
    nfind (nupd l p f) q = nfind l q := by
  unfold nfind nupd
  induction l with
  | nil => simp
  | cons m ms ih =>
      by_cases hm : m.path = p
      · simp only [List.map_cons, if_pos hm]
        rw [List.find?_cons_of_neg _ (by simp [hf m hm, hm, hpq.symm]),
          List.find?_cons_of_neg _ (by simp [hm, hpq.symm])]
        exact ih
      · simp only [List.map_cons, if_neg hm]
        by_cases hq : m.path = q
        · rw [List.find?_cons_of_pos _ (by simpa using hq),
            List.find?_cons_of_pos _ (by simpa using hq)]
        · rw [List.find?_cons_of_neg _ (by simpa using hq),
            List.find?_cons_of_neg _ (by simpa using hq)]
          exact ih

theorem nupd_nupd_same {l : List Node} {p : List String} {f g : Node → Node}
    (hf : ∀ m, m.path = p → (f m).path = m.path) :
    nupd (nupd l p f) p g = nupd l p (fun n => g (f n)) := by
  unfold nupd
  rw [List.map_map]
  apply List.map_congr_left
  intro n _
  by_cases h : n.path = p
  · simp [h, hf n h]
  · simp [h]

theorem nupd_congr {l : List Node} {p : List String} {f g : Node → Node}
    (h : ∀ n ∈ l, n.path = p → f n = g n) : nupd l p f = nupd l p g := by
  unfold nupd
  apply List.map_congr_left
  intro n hn
  by_cases hp : n.path = p
  · simp [hp, h n hn hp]
  · simp [hp]

theorem nupd_id {l : List Node} {p : List String} {f : Node → Node}
    (h : ∀ n ∈ l, n.path = p → f n = n) : nupd l p f = l := by
  unfold nupd
  conv_rhs => rw [← List.map_id l]
  apply List.map_congr_left
  intro n hn
  by_cases hp : n.path = p
  · simp [hp, h n hn hp]
  · simp [hp]

theorem nodup_unique_path {l : List Node} {p : List String} {n m : Node}
    (hnd : (l.map (fun x => x.path)).Nodup) (hn : n ∈ l) (hm : m ∈ l)
    (hp : n.path = p) (hq : m.path = p) : n = m := by
  have := List.inj_on_of_nodup_map hnd
  exact this hn hm (by rw [hp, hq])

theorem flatF_append (l1 l2 : List NTree) :
    flatF (l1 ++ l2) = flatF l1 ++ flatF l2 := by
  induction l1 with
  | nil => simp [flatF]
  | cons c cs ih => simp [flatF, ih]

theorem parentPath_append_one (pp : List String) (a : String) :
    parentPath (pp ++ [a]) = pp := by
  unfold parentPath
  simp

theorem lastName_append_one (pp : List String) (a : String) :
    lastName (pp ++ [a]) = a := by
  unfold lastName
  simp

mutual

theorem flat_popT_path (fl : Filters) (rd : Nat) (pp : List String) (t : FSTree) :
    ∀ n ∈ (popT fl rd pp t).flat, ∃ r, n.path = pp ++ r := by
  rw [popT, NTree.flat]
  intro n hn
  rcases List.mem_cons.mp hn with h | h
  · exact ⟨[], by simp [h]⟩
  · rcases flatF_popF_path fl rd pp (keptTrees fl t.subdirs) n h with ⟨c, _, r, hr⟩
    exact ⟨[c.name] ++ r, by simp [hr]⟩
termination_by sizeOf t
decreasing_by
  simp_wf
  have h1 := sizeOf_keptTrees fl t.subdirs
  have h2 := sizeOf_subdirs_lt t
  omega

theorem flatF_popF_path (fl : Filters) (rd : Nat) (pp : List String)
    (cs : List FSTree) :
    ∀ n ∈ flatF (popF fl rd pp cs),
      ∃ c ∈ cs, ∃ r, n.path = (pp ++ [c.name]) ++ r := by
  match cs with
  | [] =>
      rw [popF]
      intro n hn
      simp [flatF] at hn
  | c :: cs2 =>
      rw [popF]
      intro n hn
      rw [flatF, List.mem_append] at hn
      rcases hn with h | h
      · rcases flat_popT_path fl rd (pp ++ [c.name]) c n h with ⟨r, hr⟩
        exact ⟨c, List.mem_cons_self c cs2, r, hr⟩
      · rcases flatF_popF_path fl rd pp cs2 n h with ⟨d, hd, r, hr⟩
        exact ⟨d, List.mem_cons_of_mem c hd, r, hr⟩
termination_by sizeOf cs
decreasing_by
  all_goals simp_wf
  all_goals omega

end

/-- Every walked record path strictly extends the parent path of its
forest, so it is longer than `pp`. -/
theorem flatF_popF_path_len (fl : Filters) (rd : Nat) (pp : List String)
    (cs : List FSTree) :
    ∀ n ∈ flatF (popF fl rd pp cs), pp.length < n.path.length := by
  intro n hn
  rcases flatF_popF_path fl rd pp cs n hn with ⟨c, _, r, hr⟩
  rw [hr]
  simp

mutual

theorem ref_paths_eq_pop (tf : Node → Str) (fl : Filters) (rd : Nat)
    (pp : List String) (myPfx : Str) (t : FSTree) :
    ((refT tf fl rd pp myPfx t).flat).map (fun n => n.path) =
      ((popT fl rd pp t).flat).map (fun n => n.path) := by
  rw [refT, popT, NTree.flat, NTree.flat]
  simp only [List.map_cons]
  rw [refF_paths_eq_popF]
termination_by sizeOf t
decreasing_by
  simp_wf
  have h1 := sizeOf_keptTrees fl t.subdirs
  have h2 := sizeOf_subdirs_lt t
  omega

theorem refF_paths_eq_popF (tf : Node → Str) (fl : Filters) (rd : Nat)
    (pp : List String) (ppfx : Str) (pfiles : List String) (cs : List FSTree) :
    (flatF (refF tf fl rd pp ppfx pfiles cs)).map (fun n => n.path) =
      (flatF (popF fl rd pp cs)).map (fun n => n.path) := by
  match cs with
  | [] => rw [refF, popF]
  | c :: cs2 =>
      rw [refF, popF, flatF, flatF]
      simp only [List.map_append]
      rw [ref_paths_eq_pop, refF_paths_eq_popF]
termination_by sizeOf cs
decreasing_by
  all_goals simp_wf
  all_goals omega

end

theorem uniqT_parts {t : FSTree} (hu : uniqT t = true) :
    (t.subdirs.map FSTree.name).Nodup ∧ uniqF t.subdirs = true := by
  cases t with
  | node n subs fs =>
      rw [uniqT] at hu
      simp only [Bool.and_eq_true, decide_eq_true_eq] at hu
      exact ⟨hu.1, hu.2⟩

theorem uniqF_mem {cs : List FSTree} {c : FSTree} (hu : uniqF cs = true)
    (hc : c ∈ cs) : uniqT c = true := by
  induction cs with
  | nil => simp at hc
  | cons d ds ih =>
      rw [uniqF, Bool.and_eq_true] at hu
      rcases List.mem_cons.mp hc with h | h
      · rw [h]; exact hu.1
      · exact ih hu.2 h

theorem keptTrees_names_nodup {fl : Filters} {subs : List FSTree}
    (h : (subs.map FSTree.name).Nodup) :
    ((keptTrees fl subs).map FSTree.name).Nodup := by
  unfold keptTrees
  have hperm : List.Perm
      ((sortTrees (subs.filter (fun c => keepItem fl.include_dirs fl.exclude_dirs c.name))).map FSTree.name)
      ((subs.filter (fun c => keepItem fl.include_dirs fl.exclude_dirs c.name)).map FSTree.name) :=
    (sortTrees_perm _).map FSTree.name
  have hsub : ((subs.filter (fun c => keepItem fl.include_dirs fl.exclude_dirs c.name)).map FSTree.name).Sublist
      (subs.map FSTree.name) :=
    (List.filter_sublist subs).map FSTree.name
  exact hperm.nodup_iff.mpr (h.sublist hsub)

theorem keptTrees_uniq {fl : Filters} {subs : List FSTree} {c : FSTree}
    (hu : uniqF subs = true) (hc : c ∈ keptTrees fl subs) : uniqT c = true :=
  uniqF_mem hu (mem_keptTrees hc)

theorem path_disc {pp : List String} {a b : String} {r r2 : List String}
    (h : pp ++ a :: r = pp ++ b :: r2) : a = b := by
  have := List.append_cancel_left h
  exact (List.cons.injEq a r b r2 ▸ this).1

mutual

theorem popT_paths_nodup (fl : Filters) (rd : Nat) (pp : List String)
    (t : FSTree) (hu : uniqT t = true) :
    (((popT fl rd pp t).flat).map (fun n => n.path)).Nodup := by
  rw [popT, NTree.flat]
  simp only [List.map_cons]
  rw [List.nodup_cons]
  constructor
  · intro hmem
    rw [List.mem_map] at hmem
    rcases hmem with ⟨n, hn, hp⟩
    have := flatF_popF_path_len fl rd pp (keptTrees fl t.subdirs) n hn
    rw [hp] at this
    omega
  · exact popF_paths_nodup fl rd pp (keptTrees fl t.subdirs)
      (keptTrees_names_nodup (uniqT_parts hu).1)
      (fun c hc => keptTrees_uniq (uniqT_parts hu).2 hc)
termination_by sizeOf t
decreasing_by
  simp_wf
  have h1 := sizeOf_keptTrees fl t.subdirs
  have h2 := sizeOf_subdirs_lt t
  omega

theorem popF_paths_nodup (fl : Filters) (rd : Nat) (pp : List String)
    (cs : List FSTree) (hn : (cs.map FSTree.name).Nodup)
    (hu : ∀ c ∈ cs, uniqT c = true) :
    ((flatF (popF fl rd pp cs)).map (fun n => n.path)).Nodup := by
  match cs with
  | [] =>
      rw [popF]
      simp [flatF]
  | c :: cs2 =>
      have hn3 : c.name ∉ cs2.map FSTree.name ∧ (cs2.map FSTree.name).Nodup := by
        rw [List.map_cons, List.nodup_cons] at hn
        exact hn
      rw [popF, flatF]
      simp only [List.map_append]
      apply List.Nodup.append
      · exact popT_paths_nodup fl rd (pp ++ [c.name]) c
          (hu c (List.mem_cons_self c cs2))
      · apply popF_paths_nodup fl rd pp cs2
        · exact hn3.2
        · exact fun d hd => hu d (List.mem_cons_of_mem c hd)
      · intro x hx hy
        rw [List.mem_map] at hx hy
        rcases hx with ⟨n1, hn1, hp1⟩
        rcases hy with ⟨n2, hn2, hp2⟩
        rcases flat_popT_path fl rd (pp ++ [c.name]) c n1 hn1 with ⟨r, hr⟩
        rcases flatF_popF_path fl rd pp cs2 n2 hn2 with ⟨d, hd, r2, hr2⟩
        have hx1 : x = pp ++ c.name :: r := by
          rw [← hp1, hr]; simp
        have hx2 : x = pp ++ d.name :: r2 := by
          rw [← hp2, hr2]; simp
        have : c.name = d.name := path_disc (hx1 ▸ hx2)
        have hmem : c.name ∈ cs2.map FSTree.name :=
          this ▸ List.mem_map_of_mem FSTree.name hd
        exact hn3.1 hmem
termination_by sizeOf cs
decreasing_by
  all_goals simp_wf
  all_goals omega

end

theorem pfxLoopGen_nil (tf : Node → Str) (top : List String) (st : List Node) :
    pfxLoopGen tf top st [] = .ok st := rfl

theorem pfxLoopGen_cons_found (tf : Node → Str) (top : List String)
    (st : List Node) (p : List String) (rest : List (List String))
    {node parent : Node} (hn : nfind st p = some node)
    (hp : nfind st (parentPath p) = some parent) :
    pfxLoopGen tf top st (p :: rest) =
      pfxLoopGen tf top
        (nupd (nupd st parent.path
            (fun _ => setDirs parent (parent.dirs.erase node.name))) p
          (fun m => setPfx m (tf (setDirs parent (parent.dirs.erase node.name)))))
        rest := by
  rw [pfxLoopGen, hn, hp]

theorem pfxLoopGen_cons_root (tf : Node → Str) (top : List String)
    (st : List Node) (rest : List (List String)) {node : Node}
    (hn : nfind st top = some node)
    (hp : nfind st (parentPath top) = none) :
    pfxLoopGen tf top st (top :: rest) = pfxLoopGen tf top st rest := by
  rw [pfxLoopGen, hn, hp]
  simp

theorem pfxLoopGen_cons_err (tf : Node → Str) (top : List String)
    (st : List Node) (p : List String) (rest : List (List String))
    {node : Node} (hn : nfind st p = some node)
    (hp : nfind st (parentPath p) = none) (hne : p ≠ top) :
    pfxLoopGen tf top st (p :: rest) = .error (errMsg p) := by
  rw [pfxLoopGen, hn, hp]
  simp [hne]

theorem popT_eq (fl : Filters) (rd : Nat) (path : List String) (t : FSTree) :
    popT fl rd path t =
      .mk (popRec fl rd path t) (popF fl rd path (keptTrees fl t.subdirs)) := by
  rw [popT]
  rfl

theorem refT_eq (tf : Node → Str) (fl : Filters) (rd : Nat)
    (path : List String) (myPfx : Str) (t : FSTree) :
    refT tf fl rd path myPfx t =
      .mk (refRec fl rd path myPfx t)
        (refF tf fl rd path myPfx (filter_files fl t.files)
          (keptTrees fl t.subdirs)) := by
  rw [refT]
  rfl

theorem refF_cons (tf : Node → Str) (fl : Filters) (rd : Nat)
    (pp : List String) (ppfx : Str) (pfiles : List String) (c : FSTree)
    (cs2 : List FSTree) :
    refF tf fl rd pp ppfx pfiles (c :: cs2) =
      refT tf fl rd (pp ++ [c.name])
          (tf (parentRec rd pp ppfx pfiles (cs2.map FSTree.name))) c
        :: refF tf fl rd pp ppfx pfiles cs2 := by
  rw [refF]
  rfl

theorem popF_cons (fl : Filters) (rd : Nat) (pp : List String) (c : FSTree)
    (cs2 : List FSTree) :
    popF fl rd pp (c :: cs2) =
      popT fl rd (pp ++ [c.name]) c :: popF fl rd pp cs2 := by
  rw [popF]

theorem setPfx_popRec (fl : Filters) (rd : Nat) (p2 : List String)
    (c : FSTree) (x : Str) :
    setPfx (popRec fl rd p2 c) x =
      parentRec rd p2 x (filter_files fl c.files)
        ((keptTrees fl c.subdirs).map FSTree.name) := by
  simp [setPfx, popRec, parentRec, keptTrees_names]

theorem setDirs_parentRec_refRec (fl : Filters) (rd : Nat)
    (p2 : List String) (c : FSTree) (x : Str) :
    setDirs (parentRec rd p2 x (filter_files fl c.files)
        ((keptTrees fl c.subdirs).map FSTree.name)) [] =
      refRec fl rd p2 x c := by
  simp [setDirs, parentRec, refRec]

theorem erase_parentRec (rd : Nat) (pp : List String) (ppfx : Str)
    (pfiles : List String) (c : FSTree) (cs2 : List FSTree) :
    setDirs (parentRec rd pp ppfx pfiles ((c :: cs2).map FSTree.name))
        ((parentRec rd pp ppfx pfiles ((c :: cs2).map FSTree.name)).dirs.erase
          (lastName (pp ++ [c.name]))) =
      parentRec rd pp ppfx pfiles (cs2.map FSTree.name) := by
  rw [lastName_append_one]
  simp [setDirs, parentRec, List.erase_cons_head]

theorem nodup_parts {l1 l2 : List Node}
    (h : ((l1 ++ l2).map (fun n => n.path)).Nodup) :
    (l1.map (fun n => n.path)).Nodup ∧ (l2.map (fun n => n.path)).Nodup ∧
      ∀ x ∈ l1, ∀ y ∈ l2, x.path ≠ y.path := by
  rw [List.map_append, List.nodup_append] at h
  refine ⟨h.1, h.2.1, ?_⟩
  intro x hx y hy hxy
  exact h.2.2 (List.mem_map_of_mem _ hx) (hxy ▸ List.mem_map_of_mem _ hy)

theorem nfind_append_left {l1 : List Node} (l2 : List Node)
    {p : List String} {n : Node} (h : nfind l1 p = some n) :
    nfind (l1 ++ l2) p = some n := by
  rw [nfind_append, h]
  rfl

theorem nfind_head (A : List Node) (r0 : Node) (rest : List Node)
    (hA : ∀ n ∈ A, n.path ≠ r0.path) :
    nfind (A ++ r0 :: rest) r0.path = some r0 := by
  rw [nfind_append, nfind_eq_none hA]
  show nfind (r0 :: rest) r0.path = some r0
  unfold nfind
  rw [List.find?_cons_of_pos _ (by simp)]

theorem pfxLoopGen_cons_found2 (tf : Node → Str) (top : List String)
    (st : List Node) (p : List String) (rest : List (List String))
    {node parent P2 : Node} {q : List String} (hn : nfind st p = some node)
    (hp : nfind st (parentPath p) = some parent) (hq : parent.path = q)
    (hP2 : setDirs parent (parent.dirs.erase node.name) = P2) :
    pfxLoopGen tf top st (p :: rest) =
      pfxLoopGen tf top
        (nupd (nupd st q (fun _ => P2)) p (fun m => setPfx m (tf P2))) rest := by
  rw [pfxLoopGen, hn, hp]
  dsimp only
  rw [hP2, hq]

theorem mem_nupd {l : List Node} {p : List String} {f : Node → Node} {m : Node}
    (h : m ∈ nupd l p f) : (∃ n ∈ l, n.path = p ∧ m = f n) ∨ m ∈ l := by
  unfold nupd at h
  rcases List.mem_map.mp h with ⟨n, hn, hm⟩
  by_cases hp : n.path = p
  · exact .inl ⟨n, hn, hp, by rw [← hm, if_pos hp]⟩
  · exact .inr (by rw [← hm, if_neg hp]; exact hn)

theorem nupd_cons (n : Node) (l : List Node) (p : List String) (f : Node → Node) :
    nupd (n :: l) p f = (if n.path = p then f n else n) :: nupd l p f := rfl

theorem append_one_ne (pp : List String) (a : String) : pp ≠ pp ++ [a] := by
  intro h
  have := congrArg List.length h
  simp at this

theorem popRec_path (fl : Filters) (rd : Nat) (p : List String) (t : FSTree) :
    (popRec fl rd p t).path = p := rfl

theorem parentRec_path (rd : Nat) (pp : List String) (x : Str)
    (y z : List String) : (parentRec rd pp x y z).path = pp := rfl

theorem setPfx_path (n : Node) (x : Str) : (setPfx n x).path = n.path := rfl

/-- Main correspondence: running the prefix-assignment loop over the record
block of a pre-order forest (all children of the directory at `pp`, which
already has its prefix `ppfx` assigned and carries exactly the forest's
names as its remaining worklist) rewrites that block into its finished
reference form `refF` and empties the parent's worklist. -/
theorem loop_forest (tf : Node → Str) (fl : Filters) (rd : Nat)
    (top : List String) (pp : List String) (ppfx : Str) (pfiles : List String)
    (cs : List FSTree) (A B : List Node) (restKeys : List (List String))
    (hfind : nfind A pp = some (parentRec rd pp ppfx pfiles (cs.map FSTree.name)))
    (hnd : ((A ++ (flatF (popF fl rd pp cs) ++ B)).map (fun n => n.path)).Nodup) :
    pfxLoopGen tf top (A ++ (flatF (popF fl rd pp cs) ++ B))
        ((flatF (popF fl rd pp cs)).map (fun n => n.path) ++ restKeys)
      = pfxLoopGen tf top
          (nupd A pp (fun n => setDirs n []) ++
            (flatF (refF tf fl rd pp ppfx pfiles cs) ++ B))
          restKeys := by
  match cs with
  | [] =>
      have hP := nfind_some hfind
      have hndA : (A.map (fun n => n.path)).Nodup := (nodup_parts hnd).1
      have hA : nupd A pp (fun n => setDirs n []) = A := by
        apply nupd_id
        intro n hnA hp
        have hn2 : n = parentRec rd pp ppfx pfiles (([] : List FSTree).map FSTree.name) :=
          nodup_unique_path hndA hnA hP.1 hp hP.2
        rw [hn2]
        rfl
      rw [popF, refF, hA, flatF]
      simp only [List.map_nil, List.nil_append]
  | c :: cs2 =>
      have hblockB : flatF (popF fl rd pp (c :: cs2)) ++ B =
          popRec fl rd (pp ++ [c.name]) c :: (flatF (popF fl rd (pp ++ [c.name]) (keptTrees fl c.subdirs)) ++ (flatF (popF fl rd pp cs2) ++ B)) := by
        rw [popF_cons, flatF, popT_eq, NTree.flat]
        simp [List.append_assoc]
      have hkeys : (flatF (popF fl rd pp (c :: cs2))).map (fun n => n.path) ++ restKeys =
          (pp ++ [c.name]) :: ((flatF (popF fl rd (pp ++ [c.name]) (keptTrees fl c.subdirs))).map (fun n => n.path) ++ ((flatF (popF fl rd pp cs2)).map (fun n => n.path) ++ restKeys)) := by
        rw [popF_cons, flatF, popT_eq, NTree.flat]
        simp [List.append_assoc, popRec]
      rw [← List.append_assoc] at hblockB
      rw [List.append_assoc] at hblockB
      have hgoalL : A ++ (flatF (popF fl rd pp (c :: cs2)) ++ B) =
          A ++ (popRec fl rd (pp ++ [c.name]) c :: (flatF (popF fl rd (pp ++ [c.name]) (keptTrees fl c.subdirs)) ++ (flatF (popF fl rd pp cs2) ++ B))) := by rw [hblockB]
      rw [hgoalL, hkeys]
      rw [hgoalL] at hnd
      obtain ⟨ndA, ndZ, disjA⟩ := nodup_parts hnd
      rw [List.map_cons, List.nodup_cons] at ndZ
      have hP := nfind_some hfind
      have f1 : ∀ n ∈ A, n.path ≠ (popRec fl rd (pp ++ [c.name]) c).path := by
        intro n hn
        exact disjA n hn (popRec fl rd (pp ++ [c.name]) c) (List.mem_cons_self _ _)
      have fZpp : ∀ n ∈ popRec fl rd (pp ++ [c.name]) c :: (flatF (popF fl rd (pp ++ [c.name]) (keptTrees fl c.subdirs)) ++ (flatF (popF fl rd pp cs2) ++ B)), n.path ≠ pp := by
        intro n hn heq
        exact disjA _ hP.1 n hn (by rw [hP.2, heq])
      have fKRB : ∀ n ∈ flatF (popF fl rd (pp ++ [c.name]) (keptTrees fl c.subdirs)) ++ (flatF (popF fl rd pp cs2) ++ B), n.path ≠ pp ++ [c.name] := by
        intro n hn heq
        apply ndZ.1
        have hmm : n.path ∈ (flatF (popF fl rd (pp ++ [c.name]) (keptTrees fl c.subdirs)) ++ (flatF (popF fl rd pp cs2) ++ B)).map (fun n => n.path) :=
          List.mem_map_of_mem _ hn
        rw [heq] at hmm
        rw [popRec_path]
        exact hmm
      have hf2 : ∀ m : Node, m.path = pp →
          ((fun _ => parentRec rd pp ppfx pfiles (cs2.map FSTree.name)) m).path = m.path := by
        intro m hm
        rw [hm]
        rfl
      have fA2 : ∀ n ∈ nupd A pp (fun _ => parentRec rd pp ppfx pfiles (cs2.map FSTree.name)), n.path ≠ pp ++ [c.name] := by
        intro m hm
        rcases mem_nupd hm with ⟨n, hn, hp2, hmeq⟩ | hm2
        · rw [hmeq, parentRec_path]
          exact append_one_ne pp c.name
        · have := f1 m hm2
          rw [popRec_path] at this
          exact this
      have hn1 : nfind (A ++ (popRec fl rd (pp ++ [c.name]) c :: (flatF (popF fl rd (pp ++ [c.name]) (keptTrees fl c.subdirs)) ++ (flatF (popF fl rd pp cs2) ++ B)))) (pp ++ [c.name]) =
          some (popRec fl rd (pp ++ [c.name]) c) :=
        nfind_head A _ _ f1
      have hp1 : nfind (A ++ (popRec fl rd (pp ++ [c.name]) c :: (flatF (popF fl rd (pp ++ [c.name]) (keptTrees fl c.subdirs)) ++ (flatF (popF fl rd pp cs2) ++ B)))) (parentPath (pp ++ [c.name])) =
          some (parentRec rd pp ppfx pfiles ((c :: cs2).map FSTree.name)) := by
        rw [parentPath_append_one]
        exact nfind_append_left _ hfind
      rw [pfxLoopGen_cons_found2 tf top _ _ _ hn1 hp1
        (parentRec_path rd pp ppfx pfiles ((c :: cs2).map FSTree.name))
        (erase_parentRec rd pp ppfx pfiles c cs2)]
      have hshape : nupd (nupd (A ++ (popRec fl rd (pp ++ [c.name]) c :: (flatF (popF fl rd (pp ++ [c.name]) (keptTrees fl c.subdirs)) ++ (flatF (popF fl rd pp cs2) ++ B)))) pp
            (fun _ => parentRec rd pp ppfx pfiles (cs2.map FSTree.name))) (pp ++ [c.name]) (fun m => setPfx m (tf (parentRec rd pp ppfx pfiles (cs2.map FSTree.name))))
          = nupd A pp (fun _ => parentRec rd pp ppfx pfiles (cs2.map FSTree.name)) ++ (setPfx (popRec fl rd (pp ++ [c.name]) c) (tf (parentRec rd pp ppfx pfiles (cs2.map FSTree.name))) :: (flatF (popF fl rd (pp ++ [c.name]) (keptTrees fl c.subdirs)) ++ (flatF (popF fl rd pp cs2) ++ B))) := by
        rw [nupd_append, nupd_not_mem _ fZpp, nupd_append, nupd_not_mem _ fA2,
          nupd_cons, if_pos (popRec_path fl rd (pp ++ [c.name]) c),
          nupd_not_mem _ fKRB]
      rw [hshape]
      have hfind2 : nfind (nupd A pp (fun _ => parentRec rd pp ppfx pfiles (cs2.map FSTree.name)) ++ [setPfx (popRec fl rd (pp ++ [c.name]) c) (tf (parentRec rd pp ppfx pfiles (cs2.map FSTree.name)))]) (pp ++ [c.name]) =
          some (parentRec rd (pp ++ [c.name]) (tf (parentRec rd pp ppfx pfiles (cs2.map FSTree.name))) (filter_files fl c.files)
            ((keptTrees fl c.subdirs).map FSTree.name)) := by
        rw [nfind_append, nfind_eq_none fA2]
        show nfind [setPfx (popRec fl rd (pp ++ [c.name]) c) (tf (parentRec rd pp ppfx pfiles (cs2.map FSTree.name)))] (pp ++ [c.name]) = _
        unfold nfind
        rw [List.find?_cons_of_pos _ (by simp [setPfx, popRec]), setPfx_popRec]
      have hnd2 : (((nupd A pp (fun _ => parentRec rd pp ppfx pfiles (cs2.map FSTree.name)) ++ [setPfx (popRec fl rd (pp ++ [c.name]) c) (tf (parentRec rd pp ppfx pfiles (cs2.map FSTree.name)))]) ++
          (flatF (popF fl rd (pp ++ [c.name]) (keptTrees fl c.subdirs)) ++ (flatF (popF fl rd pp cs2) ++ B))).map (fun n => n.path)).Nodup := by
        have hm : ((nupd A pp (fun _ => parentRec rd pp ppfx pfiles (cs2.map FSTree.name)) ++ [setPfx (popRec fl rd (pp ++ [c.name]) c) (tf (parentRec rd pp ppfx pfiles (cs2.map FSTree.name)))]) ++
            (flatF (popF fl rd (pp ++ [c.name]) (keptTrees fl c.subdirs)) ++ (flatF (popF fl rd pp cs2) ++ B))).map (fun n => n.path)
            = (A ++ (popRec fl rd (pp ++ [c.name]) c :: (flatF (popF fl rd (pp ++ [c.name]) (keptTrees fl c.subdirs)) ++ (flatF (popF fl rd pp cs2) ++ B)))).map (fun n => n.path) := by
          simp only [List.map_append, List.map_cons]
          rw [nupd_map_path hf2]
          simp [List.append_assoc, setPfx_path]
        rw [hm]
        exact hnd
      have hrec1 := loop_forest tf fl rd top (pp ++ [c.name]) (tf (parentRec rd pp ppfx pfiles (cs2.map FSTree.name)))
        (filter_files fl c.files) (keptTrees fl c.subdirs)
        (nupd A pp (fun _ => parentRec rd pp ppfx pfiles (cs2.map FSTree.name)) ++ [setPfx (popRec fl rd (pp ++ [c.name]) c) (tf (parentRec rd pp ppfx pfiles (cs2.map FSTree.name)))]) (flatF (popF fl rd pp cs2) ++ B)
        ((flatF (popF fl rd pp cs2)).map (fun n => n.path) ++ restKeys) hfind2 hnd2
      simp only [List.append_assoc, List.cons_append, List.singleton_append, List.nil_append] at hrec1
      rw [hrec1]
      have hupd2 : nupd (nupd A pp (fun _ => parentRec rd pp ppfx pfiles (cs2.map FSTree.name)) ++ [setPfx (popRec fl rd (pp ++ [c.name]) c) (tf (parentRec rd pp ppfx pfiles (cs2.map FSTree.name)))]) (pp ++ [c.name])
          (fun n => setDirs n []) = nupd A pp (fun _ => parentRec rd pp ppfx pfiles (cs2.map FSTree.name)) ++ [refRec fl rd (pp ++ [c.name]) (tf (parentRec rd pp ppfx pfiles (cs2.map FSTree.name))) c] := by
        rw [nupd_append, nupd_not_mem _ fA2, nupd_cons,
          if_pos (by simp [setPfx, popRec] : (setPfx (popRec fl rd (pp ++ [c.name]) c) (tf (parentRec rd pp ppfx pfiles (cs2.map FSTree.name)))).path = pp ++ [c.name])]
        rw [setPfx_popRec, setDirs_parentRec_refRec]
        rfl
      simp only [List.append_assoc, List.cons_append, List.singleton_append, List.nil_append] at hupd2
      rw [hupd2]
      simp only [List.append_assoc, List.cons_append, List.singleton_append, List.nil_append]
      have hfind3 : nfind (nupd A pp (fun _ => parentRec rd pp ppfx pfiles (cs2.map FSTree.name)) ++ (refRec fl rd (pp ++ [c.name]) (tf (parentRec rd pp ppfx pfiles (cs2.map FSTree.name))) c :: flatF (refF tf fl rd (pp ++ [c.name]) (tf (parentRec rd pp ppfx pfiles (cs2.map FSTree.name))) (filter_files fl c.files) (keptTrees fl c.subdirs)))) pp =
          some (parentRec rd pp ppfx pfiles (cs2.map FSTree.name)) := by
        apply nfind_append_left
        exact nfind_nupd_self hf2 hfind
      have hnd3 : (((nupd A pp (fun _ => parentRec rd pp ppfx pfiles (cs2.map FSTree.name)) ++ (refRec fl rd (pp ++ [c.name]) (tf (parentRec rd pp ppfx pfiles (cs2.map FSTree.name))) c :: flatF (refF tf fl rd (pp ++ [c.name]) (tf (parentRec rd pp ppfx pfiles (cs2.map FSTree.name))) (filter_files fl c.files) (keptTrees fl c.subdirs)))) ++
          (flatF (popF fl rd pp cs2) ++ B)).map (fun n => n.path)).Nodup := by
        have hm : ((nupd A pp (fun _ => parentRec rd pp ppfx pfiles (cs2.map FSTree.name)) ++ (refRec fl rd (pp ++ [c.name]) (tf (parentRec rd pp ppfx pfiles (cs2.map FSTree.name))) c :: flatF (refF tf fl rd (pp ++ [c.name]) (tf (parentRec rd pp ppfx pfiles (cs2.map FSTree.name))) (filter_files fl c.files) (keptTrees fl c.subdirs)))) ++
            (flatF (popF fl rd pp cs2) ++ B)).map (fun n => n.path)
            = (A ++ (popRec fl rd (pp ++ [c.name]) c :: (flatF (popF fl rd (pp ++ [c.name]) (keptTrees fl c.subdirs)) ++ (flatF (popF fl rd pp cs2) ++ B)))).map (fun n => n.path) := by
          simp only [List.map_append, List.map_cons]
          rw [nupd_map_path hf2, refF_paths_eq_popF]
          simp [List.append_assoc, refRec, popRec]
        rw [hm]
        exact hnd
      have hrec2 := loop_forest tf fl rd top pp ppfx pfiles cs2
        (nupd A pp (fun _ => parentRec rd pp ppfx pfiles (cs2.map FSTree.name)) ++ (refRec fl rd (pp ++ [c.name]) (tf (parentRec rd pp ppfx pfiles (cs2.map FSTree.name))) c :: flatF (refF tf fl rd (pp ++ [c.name]) (tf (parentRec rd pp ppfx pfiles (cs2.map FSTree.name))) (filter_files fl c.files) (keptTrees fl c.subdirs)))) B restKeys hfind3 hnd3
      simp only [List.append_assoc, List.cons_append, List.singleton_append, List.nil_append] at hrec2
      rw [hrec2]
      have hupd3 : nupd (nupd A pp (fun _ => parentRec rd pp ppfx pfiles (cs2.map FSTree.name)) ++ (refRec fl rd (pp ++ [c.name]) (tf (parentRec rd pp ppfx pfiles (cs2.map FSTree.name))) c :: flatF (refF tf fl rd (pp ++ [c.name]) (tf (parentRec rd pp ppfx pfiles (cs2.map FSTree.name))) (filter_files fl c.files) (keptTrees fl c.subdirs)))) pp
          (fun n => setDirs n []) = nupd A pp (fun n => setDirs n []) ++ (refRec fl rd (pp ++ [c.name]) (tf (parentRec rd pp ppfx pfiles (cs2.map FSTree.name))) c :: flatF (refF tf fl rd (pp ++ [c.name]) (tf (parentRec rd pp ppfx pfiles (cs2.map FSTree.name))) (filter_files fl c.files) (keptTrees fl c.subdirs))) := by
        rw [nupd_append]
        congr 1
        · rw [nupd_nupd_same hf2]
          apply nupd_congr
          intro n hn hp
          have hn2 : n = parentRec rd pp ppfx pfiles ((c :: cs2).map FSTree.name) := nodup_unique_path ndA hn hP.1 hp hP.2
          rw [hn2]
          rfl
        · apply nupd_not_mem
          intro n hn heq
          rcases List.mem_cons.mp hn with h | h
          · rw [h] at heq
            exact append_one_ne pp c.name (by simpa [refRec] using heq.symm)
          · have hmem : n.path ∈ (flatF (refF tf fl rd (pp ++ [c.name]) (tf (parentRec rd pp ppfx pfiles (cs2.map FSTree.name))) (filter_files fl c.files) (keptTrees fl c.subdirs))).map (fun n => n.path) :=
              List.mem_map_of_mem _ h
            rw [refF_paths_eq_popF] at hmem
            rcases List.mem_map.mp hmem with ⟨m, hm, hmp⟩
            exact fZpp m (List.mem_cons_of_mem _ (List.mem_append_left _ hm))
              (by rw [hmp, heq])
      have hrhs : flatF (refF tf fl rd pp ppfx pfiles (c :: cs2)) ++ B =
          refRec fl rd (pp ++ [c.name]) (tf (parentRec rd pp ppfx pfiles (cs2.map FSTree.name))) c :: (flatF (refF tf fl rd (pp ++ [c.name]) (tf (parentRec rd pp ppfx pfiles (cs2.map FSTree.name))) (filter_files fl c.files) (keptTrees fl c.subdirs)) ++ (flatF (refF tf fl rd pp ppfx pfiles cs2) ++ B)) := by
        rw [refF_cons, flatF, refT_eq, NTree.flat]
        simp [List.append_assoc]
      rw [hupd3]
      congr 1
      rw [hrhs]
      simp [List.append_assoc]
termination_by sizeOf cs
decreasing_by
  all_goals simp_wf
  all_goals first
    | omega
    | (have h1 := sizeOf_keptTrees fl c.subdirs
       have h2 := sizeOf_subdirs_lt c
       omega)

theorem popRec_as_parentRec (fl : Filters) (rd : Nat) (p : List String)
    (t : FSTree) :
    popRec fl rd p t =
      parentRec rd p [] (filter_files fl t.files)
        ((keptTrees fl t.subdirs).map FSTree.name) := by
  simp [popRec, parentRec, keptTrees_names]

/-- Running the whole prefix-assignment pass (any transform) over the full
record collection of a walked tree produces exactly the reference record
tree, flattened. -/
theorem pfxLoop_populate (tf : Node → Str) (fl : Filters) (top : List String)
    (t : FSTree) (ht : top ≠ []) (hu : uniqT t = true) :
    pfxLoopGen tf top (populate fl top t)
        ((populate fl top t).map (fun n => n.path))
      = .ok ((refT tf fl top.length top [] t).flat) := by
  have hpop : populate fl top t =
      popRec fl top.length top t ::
        flatF (popF fl top.length top (keptTrees fl t.subdirs)) := by
    rw [populate, popT_eq, NTree.flat]
  rw [hpop]
  have hnd0 : ((popRec fl top.length top t ::
      flatF (popF fl top.length top (keptTrees fl t.subdirs))).map
        (fun n => n.path)).Nodup := by
    rw [← NTree.flat, ← popT_eq]
    exact popT_paths_nodup fl top.length top t hu
  have hn0 : nfind (popRec fl top.length top t ::
      flatF (popF fl top.length top (keptTrees fl t.subdirs))) top =
      some (popRec fl top.length top t) := by
    unfold nfind
    rw [List.find?_cons_of_pos _ (by simp [popRec])]
  have hp0 : nfind (popRec fl top.length top t ::
      flatF (popF fl top.length top (keptTrees fl t.subdirs)))
      (parentPath top) = none := by
    apply nfind_eq_none
    intro n hn
    rcases List.mem_cons.mp hn with h | h
    · rw [h, popRec_path]
      intro heq
      have hlen := congrArg List.length heq
      unfold parentPath at hlen
      rw [List.length_dropLast] at hlen
      have : 0 < top.length := List.length_pos.mpr ht
      omega
    · have hlen := flatF_popF_path_len fl top.length top
        (keptTrees fl t.subdirs) n h
      intro heq
      have := congrArg List.length heq
      unfold parentPath at this
      rw [List.length_dropLast] at this
      omega
  rw [List.map_cons, popRec_path]
  rw [pfxLoopGen_cons_root tf top _ _ hn0 hp0]
  have hloop := loop_forest tf fl top.length top top [] (filter_files fl t.files)
    (keptTrees fl t.subdirs) [popRec fl top.length top t] [] []
    (by
      unfold nfind
      rw [List.find?_cons_of_pos _ (by simp [popRec])]
      rw [popRec_as_parentRec])
    (by
      simp only [List.append_nil, List.singleton_append]
      exact hnd0)
  simp only [List.append_nil, List.singleton_append] at hloop
  rw [hloop, pfxLoopGen_nil]
  have hst : nupd [popRec fl top.length top t] top (fun n => setDirs n []) =
      [refRec fl top.length top [] t] := by
    rw [nupd_cons, if_pos (popRec_path fl top.length top t)]
    rfl
  simp only [List.singleton_append] at hst
  rw [hst]
  rw [refT_eq, NTree.flat]
  rw [List.singleton_append]

theorem append_file_lines_eq (S : SymSet) (out : List Str) (n : Node)
    (h : n.files ≠ []) :
    append_file_lines S out n = some (out ++ fileBlock S n) := by
  unfold append_file_lines fileBlock
  cases hf : n.files.getLast? with
  | none =>
      rw [List.getLast?_eq_none_iff] at hf
      exact absurd hf h
  | some last =>
      simp [List.append_assoc]

theorem fileBlock_nil (S : SymSet) (n : Node) (h : n.files = []) :
    fileBlock S n = [] := by
  unfold fileBlock
  rw [h]
  rfl

theorem blocksOf_append (S : SymSet) (l1 l2 : List Node) :
    blocksOf S (l1 ++ l2) = blocksOf S l1 ++ blocksOf S l2 := by
  induction l1 with
  | nil => simp [blocksOf]
  | cons p ps ih => simp [blocksOf, ih]

theorem flushGE_none (S : SymSet) (d : Nat) (stack : List Node) (out : List Str)
    (h : ∀ y ∈ stack, y.depth < d) :
    flushGE S d stack out = some (stack, out) := by
  cases stack with
  | nil => rfl
  | cons p st =>
      unfold flushGE
      rw [if_neg]
      simp only [not_le]
      exact h p (List.mem_cons_self _ _)

theorem flushGE_split (S : SymSet) (d : Nat) (hi lo : List Node) (out : List Str)
    (hhi : ∀ x ∈ hi, d ≤ x.depth ∧ x.files ≠ [])
    (hlo : ∀ y ∈ lo, y.depth < d) :
    flushGE S d (hi ++ lo) out = some (lo, out ++ blocksOf S hi) := by
  induction hi generalizing out with
  | nil =>
      simp only [List.nil_append, blocksOf, List.append_nil]
      exact flushGE_none S d lo out hlo
  | cons p ps ih =>
      have hp := hhi p (List.mem_cons_self _ _)
      rw [List.cons_append]
      unfold flushGE
      rw [if_pos hp.1, append_file_lines_eq S out p hp.2]
      dsimp only
      rw [ih (out ++ fileBlock S p) (fun x hx => hhi x (List.mem_cons_of_mem _ hx))]
      simp [blocksOf, List.append_assoc]

theorem flushAll_ok (S : SymSet) (l : List Node) (out : List Str)
    (h : ∀ x ∈ l, x.files ≠ []) :
    flushAll S l out = some (out ++ blocksOf S l) := by
  induction l generalizing out with
  | nil => simp [flushAll, blocksOf]
  | cons p ps ih =>
      unfold flushAll
      rw [append_file_lines_eq S out p (h p (List.mem_cons_self _ _))]
      dsimp only
      rw [ih (out ++ fileBlock S p) (fun x hx => h x (List.mem_cons_of_mem _ hx))]
      simp [blocksOf, List.append_assoc]

theorem depthF_mem {d : Nat} {cs : List NTree} (h : depthF d cs = true) :
    ∀ c ∈ cs, depthOk c = true ∧ c.nd.depth = d + 1 := by
  induction cs with
  | nil => simp
  | cons c cs ih =>
      rw [depthF] at h
      simp only [Bool.and_eq_true, beq_iff_eq] at h
      intro x hx
      rcases List.mem_cons.mp hx with hh | hh
      · rw [hh]
        exact ⟨h.1.2, h.1.1⟩
      · exact ih h.2 x hh

theorem depthOk_kids {r : Node} {cs : List NTree}
    (h : depthOk (NTree.mk r cs) = true) :
    ∀ c ∈ cs, depthOk c = true ∧ c.nd.depth = r.depth + 1 := by
  rw [depthOk] at h
  exact depthF_mem h

mutual

theorem pend_mem (nt : NTree) (hd : depthOk nt = true) :
    ∀ x ∈ pend nt, x.files ≠ [] ∧ nt.nd.depth ≤ x.depth := by
  match nt with
  | .mk r cs =>
      rw [pend]
      intro x hx
      rcases List.mem_append.mp hx with h | h
      · have hres := pendF_mem cs (r.depth + 1) (depthOk_kids hd) x h
        refine ⟨hres.1, ?_⟩
        show r.depth ≤ x.depth
        omega
      · by_cases hf : r.files ≠ []
        · rw [if_pos hf] at h
          rw [List.mem_singleton] at h
          rw [h]
          exact ⟨hf, le_refl _⟩
        · rw [if_neg hf] at h
          simp at h
termination_by sizeOf nt

theorem pendF_mem (cs : List NTree) (d : Nat)
    (hk : ∀ c ∈ cs, depthOk c = true ∧ c.nd.depth = d) :
    ∀ x ∈ pendF cs, x.files ≠ [] ∧ d ≤ x.depth := by
  match cs with
  | [] =>
      rw [pendF]
      simp
  | [c] =>
      rw [pendF]
      intro x hx
      have hc := hk c (List.mem_cons_self _ _)
      have hres := pend_mem c hc.1 x hx
      exact ⟨hres.1, hc.2 ▸ hres.2⟩
  | c :: c2 :: cs2 =>
      rw [pendF]
      exact pendF_mem (c2 :: cs2) d
        (fun y hy => hk y (List.mem_cons_of_mem _ hy))
termination_by sizeOf cs
decreasing_by
  all_goals simp_wf
  all_goals omega

end

mutual

theorem emitted_blocks (S : SymSet) (nt : NTree) :
    emitted S nt ++ blocksOf S (pend nt) = NTree.lines S nt := by
  match nt with
  | .mk r cs =>
      rw [emitted, pend, NTree.lines, blocksOf_append]
      have hF := emittedF_blocks S cs
      by_cases hf : r.files ≠ []
      · rw [if_pos hf]
        simp only [List.cons_append]
        rw [← List.append_assoc, hF]
        simp [blocksOf]
      · rw [if_neg hf]
        simp only [not_not] at hf
        simp only [List.cons_append]
        rw [← List.append_assoc, hF]
        simp [blocksOf, fileBlock_nil S r hf]
termination_by sizeOf nt

theorem emittedF_blocks (S : SymSet) (cs : List NTree) :
    emittedF S cs ++ blocksOf S (pendF cs) = linesF S cs := by
  match cs with
  | [] =>
      rw [emittedF, pendF, linesF]
      rfl
  | [c] =>
      rw [emittedF, pendF, linesF, linesF]
      rw [List.append_nil]
      exact emitted_blocks S c
  | c :: c2 :: cs2 =>
      rw [emittedF, pendF, linesF]
      rw [List.append_assoc]
      rw [emittedF_blocks S (c2 :: cs2)]
termination_by sizeOf cs
decreasing_by
  all_goals simp_wf
  all_goals omega

end

mutual

/-- Processing a subtree's record block: the serializer first flushes the
stack segment `hi` of pending deeper directories, then emits the reference
lines of the subtree except the file blocks of its still-pending spine,
which it leaves on the stack. -/
theorem go_flat (S : SymSet) (nt : NTree) (rest : List Node) (hi lo : List Node)
    (out : List Str) (hd : depthOk nt = true)
    (hhi : ∀ x ∈ hi, nt.nd.depth ≤ x.depth ∧ x.files ≠ [])
    (hlo : ∀ y ∈ lo, y.depth < nt.nd.depth) :
    treeGo S (nt.flat ++ rest) (hi ++ lo) out =
      treeGo S rest (pend nt ++ lo) (out ++ blocksOf S hi ++ emitted S nt) := by
  match nt with
  | .mk r [] =>
      simp only [NTree.nd] at hhi hlo
      rw [NTree.flat, List.cons_append, treeGo]
      rw [flushGE_split S r.depth hi lo out hhi hlo]
      dsimp only
      rw [flatF, List.nil_append, pend, pendF, emitted, emittedF]
      by_cases hf : r.files ≠ []
      · rw [if_pos hf, if_pos hf]
        simp [List.append_assoc]
      · rw [if_neg hf, if_neg hf]
        simp [List.append_assoc]
  | .mk r (c :: cs2) =>
      simp only [NTree.nd] at hhi hlo
      rw [NTree.flat, List.cons_append, treeGo]
      rw [flushGE_split S r.depth hi lo out hhi hlo]
      dsimp only
      have hstack : ∀ y ∈ (if r.files ≠ [] then r :: lo else lo),
          y.depth < r.depth + 1 := by
        intro y hy
        by_cases hf : r.files ≠ []
        · rw [if_pos hf] at hy
          rcases List.mem_cons.mp hy with h | h
          · rw [h]; omega
          · have := hlo y h; omega
        · rw [if_neg hf] at hy
          have := hlo y hy; omega
      have hgf := go_forest S (r.depth + 1) c cs2 rest []
        (if r.files ≠ [] then r :: lo else lo)
        (out ++ blocksOf S hi ++ [dirLine S r])
        (depthOk_kids hd) (by simp) hstack
      rw [List.nil_append] at hgf
      rw [hgf]
      rw [pend, emitted]
      by_cases hf : r.files ≠ []
      · rw [if_pos hf]
        simp [blocksOf, List.append_assoc, hf]
      · simp only [ne_eq, not_not] at hf
        simp [blocksOf, List.append_assoc, hf]
termination_by sizeOf nt
decreasing_by
  all_goals simp_wf

theorem go_forest (S : SymSet) (d : Nat) (c : NTree) (cs : List NTree)
    (rest : List Node) (hi lo : List Node) (out : List Str)
    (hk : ∀ x ∈ c :: cs, depthOk x = true ∧ x.nd.depth = d)
    (hhi : ∀ x ∈ hi, d ≤ x.depth ∧ x.files ≠ [])
    (hlo : ∀ y ∈ lo, y.depth < d) :
    treeGo S (flatF (c :: cs) ++ rest) (hi ++ lo) out =
      treeGo S rest (pendF (c :: cs) ++ lo)
        (out ++ blocksOf S hi ++ emittedF S (c :: cs)) := by
  have hc := hk c (List.mem_cons_self _ _)
  match cs with
  | [] =>
      rw [flatF, flatF, List.append_nil, pendF, emittedF]
      exact go_flat S c rest hi lo out hc.1
        (fun x hx => ⟨hc.2 ▸ (hhi x hx).1, (hhi x hx).2⟩)
        (fun y hy => hc.2 ▸ hlo y hy)
  | c2 :: cs2 =>
      rw [flatF, List.append_assoc]
      rw [go_flat S c (flatF (c2 :: cs2) ++ rest) hi lo out hc.1
        (fun x hx => ⟨hc.2 ▸ (hhi x hx).1, (hhi x hx).2⟩)
        (fun y hy => hc.2 ▸ hlo y hy)]
      have hpend : ∀ x ∈ pend c, d ≤ x.depth ∧ x.files ≠ [] := by
        intro x hx
        have := pend_mem c hc.1 x hx
        exact ⟨hc.2 ▸ this.2, this.1⟩
      rw [go_forest S d c2 cs2 rest (pend c) lo
        (out ++ blocksOf S hi ++ emitted S c)
        (fun y hy => hk y (List.mem_cons_of_mem _ hy)) hpend hlo]
      rw [pendF, emittedF]
      have hb := emitted_blocks S c
      rw [← hb]
      simp [List.append_assoc]
termination_by 1 + sizeOf c + sizeOf cs
decreasing_by
  all_goals simp_wf
  all_goals omega

end

/-- `Tree.__str__` on the flattened reference records produces exactly the
recursive reference lines: each directory line, then its subdirectory
subtrees, then its own file lines. -/
theorem treeStr_lines (S : SymSet) (nt : NTree) (hd : depthOk nt = true) :
    treeStr S nt.flat = some (NTree.lines S nt) := by
  unfold treeStr
  have h0 := go_flat S nt [] [] [] [] hd (by simp) (by simp)
  rw [List.append_nil, List.append_nil] at h0
  rw [h0, treeGo]
  rw [List.append_nil]
  simp only [blocksOf, List.nil_append]
  rw [flushAll_ok S (pend nt) (emitted S nt)
    (fun x hx => (pend_mem nt hd x hx).1)]
  rw [emitted_blocks]

mutual

theorem depthOk_refT (tf : Node → Str) (fl : Filters) (rd : Nat)
    (path : List String) (myPfx : Str) (t : FSTree) (h : rd ≤ path.length) :
    depthOk (refT tf fl rd path myPfx t) = true := by
  rw [refT_eq, depthOk]
  show depthF (path.length - rd) _ = true
  exact depthF_refF tf fl rd path myPfx (filter_files fl t.files)
    (keptTrees fl t.subdirs) h
termination_by sizeOf t
decreasing_by
  simp_wf
  have h1 := sizeOf_keptTrees fl t.subdirs
  have h2 := sizeOf_subdirs_lt t
  omega

theorem depthF_refF (tf : Node → Str) (fl : Filters) (rd : Nat)
    (pp : List String) (ppfx : Str) (pfiles : List String) (cs : List FSTree)
    (h : rd ≤ pp.length) :
    depthF (pp.length - rd) (refF tf fl rd pp ppfx pfiles cs) = true := by
  match cs with
  | [] =>
      rw [refF]
      rfl
  | c :: cs2 =>
      rw [refF_cons, depthF]
      simp only [Bool.and_eq_true, beq_iff_eq]
      refine ⟨⟨?_, ?_⟩, ?_⟩
      · rw [refT_eq]
        show (refRec fl rd (pp ++ [c.name]) _ c).depth = pp.length - rd + 1
        show (pp ++ [c.name]).length - rd = pp.length - rd + 1
        rw [List.length_append]
        simp
        omega
      · exact depthOk_refT tf fl rd (pp ++ [c.name]) _ c
          (by rw [List.length_append]; simp; omega)
      · exact depthF_refF tf fl rd pp ppfx pfiles cs2 h
termination_by sizeOf cs
decreasing_by
  all_goals simp_wf
  all_goals omega

end

theorem flushGE_total (S : SymSet) (d : Nat) (stack : List Node) (out : List Str)
    (h : ∀ x ∈ stack, x.files ≠ []) :
    ∃ st2 out2, flushGE S d stack out = some (st2, out2) ∧
      ∀ x ∈ st2, x.files ≠ [] := by
  induction stack generalizing out with
  | nil => exact ⟨[], out, rfl, by simp⟩
  | cons p st ih =>
      unfold flushGE
      by_cases hd : d ≤ p.depth
      · rw [if_pos hd, append_file_lines_eq S out p (h p (List.mem_cons_self _ _))]
        exact ih (out ++ fileBlock S p) (fun x hx => h x (List.mem_cons_of_mem _ hx))
      · rw [if_neg hd]
        exact ⟨p :: st, out, rfl, h⟩

/-- The serializer never reaches the empty-file-list exit: every record it
flushes was pushed with a non-empty file list. -/
theorem treeGo_total (S : SymSet) (nodes : List Node) (stack : List Node)
    (out : List Str) (h : ∀ x ∈ stack, x.files ≠ []) :
    ∃ L, treeGo S nodes stack out = some L := by
  induction nodes generalizing stack out with
  | nil =>
      rw [treeGo]
      rcases flushAll_ok S stack out h with hres
      exact ⟨out ++ blocksOf S stack, hres⟩
  | cons n rest ih =>
      rw [treeGo]
      rcases flushGE_total S n.depth stack out h with ⟨st2, out2, heq, h2⟩
      rw [heq]
      apply ih
      intro x hx
      by_cases hf : n.files ≠ []
      · rw [if_pos hf] at hx
        rcases List.mem_cons.mp hx with hh | hh
        · rw [hh]; exact hf
        · exact h2 x hh
      · rw [if_neg hf] at hx
        exact h2 x hx

theorem pre_len {m s : Str} (h : m.isPrefixOf s = true) : m.length ≤ s.length := by
  induction m generalizing s with
  | nil => simp
  | cons a as ih =>
      cases s with
      | nil => simp [List.isPrefixOf] at h
      | cons b bs =>
          rw [List.isPrefixOf, Bool.and_eq_true] at h
          have := ih h.2
          simp only [List.length_cons]
          omega

theorem suf_len {m s : Str} (h : m.isSuffixOf s = true) : m.length ≤ s.length := by
  rw [List.isSuffixOf] at h
  have := pre_len h
  simpa using this

theorem replace_trailing_len {s new m : Str} (hnew : new.length = SYMBOL_LEN)
    (hm : m.length = SYMBOL_LEN) :
    (replace_trailing_symbol s new m).length = s.length := by
  unfold replace_trailing_symbol
  by_cases h : m.isSuffixOf s = true
  · rw [if_pos h]
    have hle := suf_len h
    rw [List.length_append, List.length_take, hnew]
    unfold SYMBOL_LEN at *
    omega
  · rw [if_neg h]

theorem replace_leading_len {s new m : Str} (hnew : new.length = SYMBOL_LEN)
    (hm : m.length = SYMBOL_LEN) :
    (replace_leading_symbol s new m).length = s.length := by
  unfold replace_leading_symbol
  by_cases h : m.isPrefixOf s = true
  · rw [if_pos h]
    have hle := pre_len h
    rw [List.length_append, List.length_take, hnew]
    unfold SYMBOL_LEN at *
    omega
  · rw [if_neg h]

theorem ttp_len {S : SymSet} (h4 : symLen4 S) (s : Str) :
    (transform_trailing_pfx S s).length = s.length := by
  unfold transform_trailing_pfx
  rw [replace_trailing_len h4.1 h4.2.2.2, replace_trailing_len h4.2.1 h4.2.2.1]

theorem transform_pfx_len {S : SymSet} (h4 : symLen4 S) (p : Node) :
    (transform_pfx S p).length = p.pfx.length + SYMBOL_LEN := by
  unfold transform_pfx
  rw [List.length_append, replace_leading_len h4.2.1 h4.2.2.1, ttp_len h4]
  by_cases h : p.dirs ≠ [] ∨ p.files ≠ []
  · rw [if_pos h, h4.2.2.1]
  · rw [if_neg h, h4.2.2.2]

mutual

theorem refT_pfx_len (S : SymSet) (h4 : symLen4 S) (fl : Filters) (rd : Nat)
    (path : List String) (myPfx : Str) (t : FSTree)
    (hlen : myPfx.length = SYMBOL_LEN * (path.length - rd))
    (hrd : rd ≤ path.length) :
    ∀ n ∈ (refT (transform_pfx S) fl rd path myPfx t).flat,
      n.pfx.length = SYMBOL_LEN * n.depth := by
  rw [refT_eq, NTree.flat]
  intro n hn
  rcases List.mem_cons.mp hn with h | h
  · rw [h]
    exact hlen
  · exact refF_pfx_len S h4 fl rd path myPfx (filter_files fl t.files)
      (keptTrees fl t.subdirs) hlen hrd n h
termination_by sizeOf t
decreasing_by
  simp_wf
  have h1 := sizeOf_keptTrees fl t.subdirs
  have h2 := sizeOf_subdirs_lt t
  omega

theorem refF_pfx_len (S : SymSet) (h4 : symLen4 S) (fl : Filters) (rd : Nat)
    (pp : List String) (ppfx : Str) (pfiles : List String) (cs : List FSTree)
    (hlen : ppfx.length = SYMBOL_LEN * (pp.length - rd))
    (hrd : rd ≤ pp.length) :
    ∀ n ∈ flatF (refF (transform_pfx S) fl rd pp ppfx pfiles cs),
      n.pfx.length = SYMBOL_LEN * n.depth := by
  match cs with
  | [] =>
      rw [refF]
      intro n hn
      simp [flatF] at hn
  | c :: cs2 =>
      rw [refF_cons, flatF]
      intro n hn
      rcases List.mem_append.mp hn with h | h
      · refine refT_pfx_len S h4 fl rd (pp ++ [c.name]) _ c ?_ ?_ n h
        · rw [transform_pfx_len h4]
          show ppfx.length + SYMBOL_LEN = SYMBOL_LEN * ((pp ++ [c.name]).length - rd)
          rw [hlen, List.length_append]
          simp only [List.length_singleton]
          unfold SYMBOL_LEN
          omega
        · rw [List.length_append]
          simp only [List.length_singleton]
          omega
      · exact refF_pfx_len S h4 fl rd pp ppfx pfiles cs2 hlen hrd n h
termination_by sizeOf cs
decreasing_by
  all_goals simp_wf
  all_goals omega

end

mutual

theorem refT_depth_path (tf : Node → Str) (fl : Filters) (rd : Nat)
    (path : List String) (myPfx : Str) (t : FSTree) :
    ∀ n ∈ (refT tf fl rd path myPfx t).flat, n.depth = n.path.length - rd := by
  rw [refT_eq, NTree.flat]
  intro n hn
  rcases List.mem_cons.mp hn with h | h
  · rw [h]
    rfl
  · exact refF_depth_path tf fl rd path myPfx (filter_files fl t.files)
      (keptTrees fl t.subdirs) n h
termination_by sizeOf t
decreasing_by
  simp_wf
  have h1 := sizeOf_keptTrees fl t.subdirs
  have h2 := sizeOf_subdirs_lt t
  omega

theorem refF_depth_path (tf : Node → Str) (fl : Filters) (rd : Nat)
    (pp : List String) (ppfx : Str) (pfiles : List String) (cs : List FSTree) :
    ∀ n ∈ flatF (refF tf fl rd pp ppfx pfiles cs),
      n.depth = n.path.length - rd := by
  match cs with
  | [] =>
      rw [refF]
      intro n hn
      simp [flatF] at hn
  | c :: cs2 =>
      rw [refF_cons, flatF]
      intro n hn
      rcases List.mem_append.mp hn with h | h
      · exact refT_depth_path tf fl rd (pp ++ [c.name]) _ c n h
      · exact refF_depth_path tf fl rd pp ppfx pfiles cs2 n h
termination_by sizeOf cs
decreasing_by
  all_goals simp_wf
  all_goals omega

end

mutual

theorem refT_parent_mem (tf : Node → Str) (fl : Filters) (rd : Nat)
    (path : List String) (myPfx : Str) (t : FSTree) :
    ∀ n ∈ (refT tf fl rd path myPfx t).flat, n.path ≠ path →
      ∃ p ∈ (refT tf fl rd path myPfx t).flat, p.path = parentPath n.path := by
  intro n hn hne
  rw [refT_eq, NTree.flat] at hn
  rcases List.mem_cons.mp hn with h | h
  · exact absurd (by rw [h]; rfl) hne
  · rcases refF_parent_mem tf fl rd path myPfx (filter_files fl t.files)
      (keptTrees fl t.subdirs) n h with hroot | ⟨p, hp, hpp⟩
    · refine ⟨refRec fl rd path myPfx t, ?_, ?_⟩
      · rw [refT_eq, NTree.flat]
        exact List.mem_cons_self _ _
      · rw [hroot]
        rfl
    · refine ⟨p, ?_, hpp⟩
      rw [refT_eq, NTree.flat]
      exact List.mem_cons_of_mem _ hp
termination_by sizeOf t
decreasing_by
  simp_wf
  have h1 := sizeOf_keptTrees fl t.subdirs
  have h2 := sizeOf_subdirs_lt t
  omega

theorem refF_parent_mem (tf : Node → Str) (fl : Filters) (rd : Nat)
    (pp : List String) (ppfx : Str) (pfiles : List String) (cs : List FSTree) :
    ∀ n ∈ flatF (refF tf fl rd pp ppfx pfiles cs),
      parentPath n.path = pp ∨
        ∃ p ∈ flatF (refF tf fl rd pp ppfx pfiles cs),
          p.path = parentPath n.path := by
  match cs with
  | [] =>
      rw [refF]
      intro n hn
      simp [flatF] at hn
  | c :: cs2 =>
      rw [refF_cons, flatF]
      intro n hn
      rcases List.mem_append.mp hn with h | h
      · by_cases hne : n.path = pp ++ [c.name]
        · left
          rw [hne, parentPath_append_one]
        · rcases refT_parent_mem tf fl rd (pp ++ [c.name]) _ c n h hne with
            ⟨p, hp, hpp⟩
          right
          exact ⟨p, List.mem_append_left _ hp, hpp⟩
      · rcases refF_parent_mem tf fl rd pp ppfx pfiles cs2 n h with hroot | ⟨p, hp, hpp⟩
        · left
          exact hroot
        · right
          exact ⟨p, List.mem_append_right _ hp, hpp⟩
termination_by sizeOf cs
decreasing_by
  all_goals simp_wf
  all_goals omega

end

theorem isPrefixOf_take {m s : Str} (h : m.isPrefixOf s = true) :
    s.take m.length = m := by
  induction m generalizing s with
  | nil => simp
  | cons a as ih =>
      cases s with
      | nil => simp [List.isPrefixOf] at h
      | cons b bs =>
          rw [List.isPrefixOf, Bool.and_eq_true] at h
          have hab : a = b := by
            have := h.1
            simpa [beq_iff_eq] using this.symm
          simp only [List.length_cons, List.take_succ_cons]
          rw [ih h.2, hab]

theorem symLen4U : symLen4 SymbolU := by
  refine ⟨?_, ?_, ?_, ?_⟩ <;> decide

theorem take4_replace_trailing {s new m : Str} (h8 : 8 ≤ s.length) :
    (replace_trailing_symbol s new m).take 4 = s.take 4 := by
  unfold replace_trailing_symbol
  by_cases h : m.isSuffixOf s = true
  · rw [if_pos h]
    rw [List.take_append_of_le_length]
    · rw [List.take_take]
      congr 1
      unfold SYMBOL_LEN at *
      omega
    · rw [List.length_take]
      unfold SYMBOL_LEN at *
      omega
  · rw [if_neg h]

theorem take4_ttp {s : Str} (h8 : 8 ≤ s.length) :
    (transform_trailing_pfx SymbolU s).take 4 = s.take 4 := by
  unfold transform_trailing_pfx
  rw [take4_replace_trailing (by rw [replace_trailing_len symLen4U.2.1 symLen4U.2.2.1]; exact h8),
    take4_replace_trailing h8]

theorem good_ttp_not_blead {s : Str} (hg : goodPfx s) :
    SymbolU.BRANCH.isPrefixOf (transform_trailing_pfx SymbolU s) = false := by
  rcases hg with h | h | h
  · rw [h]
    decide
  · rcases h with h | h <;> rw [h] <;> decide
  · by_contra hb
    rw [Bool.not_eq_false] at hb
    have htake := isPrefixOf_take hb
    have hlen : SymbolU.BRANCH.length = 4 := by decide
    rw [hlen, take4_ttp h.1] at htake
    rcases h.2 with hc | hc <;> rw [hc] at htake <;> revert htake <;> decide

theorem lead_noop {s : Str} (hg : goodPfx s) :
    replace_leading_symbol (transform_trailing_pfx SymbolU s)
      SymbolU.CONTINUE SymbolU.BRANCH = transform_trailing_pfx SymbolU s := by
  unfold replace_leading_symbol
  rw [good_ttp_not_blead hg]
  simp

theorem transform_spec_eq {p : Node} (hg : goodPfx p.pfx) :
    transform_pfx SymbolU p = transform_pfx_spec SymbolU p := by
  unfold transform_pfx transform_pfx_spec
  rw [lead_noop hg]

theorem good_step {p : Node} (hg : goodPfx p.pfx) :
    goodPfx (transform_pfx SymbolU p) := by
  rw [transform_spec_eq hg]
  unfold transform_pfx_spec
  have hconn : (if p.dirs ≠ [] ∨ p.files ≠ [] then SymbolU.BRANCH else SymbolU.FINAL)
      = SymbolU.BRANCH ∨
      (if p.dirs ≠ [] ∨ p.files ≠ [] then SymbolU.BRANCH else SymbolU.FINAL)
      = SymbolU.FINAL := by
    by_cases h : p.dirs ≠ [] ∨ p.files ≠ []
    · left; rw [if_pos h]
    · right; rw [if_neg h]
  rcases hg with h | h | h
  · rw [h]
    show goodPfx (transform_trailing_pfx SymbolU [] ++ _)
    have http : transform_trailing_pfx SymbolU [] = [] := by decide
    rw [http, List.nil_append]
    right
    left
    exact hconn
  · right
    right
    rcases h with h | h <;> rw [h]
    · have http : transform_trailing_pfx SymbolU SymbolU.BRANCH =
          SymbolU.CONTINUE := by decide
      rw [http]
      constructor
      · rcases hconn with hc | hc <;> rw [hc] <;> decide
      · left
        have h4 : (4 : Nat) = SymbolU.CONTINUE.length := by decide
        rw [h4, List.take_left]
    · have http : transform_trailing_pfx SymbolU SymbolU.FINAL =
          SymbolU.INDENT := by decide
      rw [http]
      constructor
      · rcases hconn with hc | hc <;> rw [hc] <;> decide
      · right
        have h4 : (4 : Nat) = SymbolU.INDENT.length := by decide
        rw [h4, List.take_left]
  · right
    right
    have hlen : (transform_trailing_pfx SymbolU p.pfx).length = p.pfx.length :=
      ttp_len symLen4U _
    constructor
    · rw [List.length_append, hlen]
      omega
    · rw [List.take_append_of_le_length (by rw [hlen]; omega)]
      rw [take4_ttp h.1]
      exact h.2

mutual

theorem refT_good (fl : Filters) (rd : Nat) (path : List String) (myPfx : Str)
    (t : FSTree) (hg : goodPfx myPfx) :
    ∀ n ∈ (refT (transform_pfx SymbolU) fl rd path myPfx t).flat,
      goodPfx n.pfx := by
  rw [refT_eq, NTree.flat]
  intro n hn
  rcases List.mem_cons.mp hn with h | h
  · rw [h]
    exact hg
  · exact refF_good fl rd path myPfx (filter_files fl t.files)
      (keptTrees fl t.subdirs) hg n h
termination_by sizeOf t
decreasing_by
  simp_wf
  have h1 := sizeOf_keptTrees fl t.subdirs
  have h2 := sizeOf_subdirs_lt t
  omega

theorem refF_good (fl : Filters) (rd : Nat) (pp : List String) (ppfx : Str)
    (pfiles : List String) (cs : List FSTree) (hg : goodPfx ppfx) :
    ∀ n ∈ flatF (refF (transform_pfx SymbolU) fl rd pp ppfx pfiles cs),
      goodPfx n.pfx := by
  match cs with
  | [] =>
      rw [refF]
      intro n hn
      simp [flatF] at hn
  | c :: cs2 =>
      rw [refF_cons, flatF]
      intro n hn
      rcases List.mem_append.mp hn with h | h
      · exact refT_good fl rd (pp ++ [c.name]) _ c
          (good_step (p := parentRec rd pp ppfx pfiles (cs2.map FSTree.name)) hg)
          n h
      · exact refF_good fl rd pp ppfx pfiles cs2 hg n h
termination_by sizeOf cs
decreasing_by
  all_goals simp_wf
  all_goals omega

end

mutual

/-- On every prefix shape the renderer actually produces, the full
derivation (with the misdirected leading-symbol step) agrees with the
simplified trailing-only derivation. -/
theorem refT_spec_eq (fl : Filters) (rd : Nat) (path : List String)
    (myPfx : Str) (t : FSTree) (hg : goodPfx myPfx) :
    refT (transform_pfx SymbolU) fl rd path myPfx t =
      refT (transform_pfx_spec SymbolU) fl rd path myPfx t := by
  rw [refT_eq, refT_eq]
  rw [refF_spec_eq fl rd path myPfx (filter_files fl t.files)
    (keptTrees fl t.subdirs) hg]
termination_by sizeOf t
decreasing_by
  simp_wf
  have h1 := sizeOf_keptTrees fl t.subdirs
  have h2 := sizeOf_subdirs_lt t
  omega

theorem refF_spec_eq (fl : Filters) (rd : Nat) (pp : List String) (ppfx : Str)
    (pfiles : List String) (cs : List FSTree) (hg : goodPfx ppfx) :
    refF (transform_pfx SymbolU) fl rd pp ppfx pfiles cs =
      refF (transform_pfx_spec SymbolU) fl rd pp ppfx pfiles cs := by
  match cs with
  | [] =>
      rw [refF, refF]
  | c :: cs2 =>
      rw [refF_cons, refF_cons]
      have heq : transform_pfx SymbolU
          (parentRec rd pp ppfx pfiles (cs2.map FSTree.name)) =
          transform_pfx_spec SymbolU
            (parentRec rd pp ppfx pfiles (cs2.map FSTree.name)) :=
        transform_spec_eq hg
      rw [← heq]
      rw [refT_spec_eq fl rd (pp ++ [c.name]) _ c
        (good_step (p := parentRec rd pp ppfx pfiles (cs2.map FSTree.name)) hg)]
      rw [refF_spec_eq fl rd pp ppfx pfiles cs2 hg]
termination_by sizeOf cs
decreasing_by
  all_goals simp_wf
  all_goals omega

end

theorem pairwise_insertTree {c : FSTree} {l : List FSTree}
    (h : l.Pairwise (fun a b => a.name ≤ b.name)) :
    (insertTree c l).Pairwise (fun a b => a.name ≤ b.name) := by
  induction l with
  | nil => simp [insertTree]
  | cons d ds ih =>
      rw [insertTree]
      rcases List.pairwise_cons.mp h with ⟨hd, hds⟩
      by_cases hc : c.name ≤ d.name
      · rw [if_pos hc]
        rw [List.pairwise_cons]
        refine ⟨?_, h⟩
        intro x hx
        rcases List.mem_cons.mp hx with hh | hh
        · rw [hh]; exact hc
        · exact le_trans hc (hd x hh)
      · rw [if_neg hc]
        rw [List.pairwise_cons]
        refine ⟨?_, ih hds⟩
        intro x hx
        rcases List.mem_cons.mp ((insertTree_perm c ds).mem_iff.mp hx) with hh | hh
        · rw [hh]
          exact le_of_not_le hc
        · exact hd x hh

theorem pairwise_sortTrees (l : List FSTree) :
    (sortTrees l).Pairwise (fun a b => a.name ≤ b.name) := by
  induction l with
  | nil => simp [sortTrees]
  | cons c cs ih =>
      rw [sortTrees]
      exact pairwise_insertTree ih

theorem pairwise_keptTrees (fl : Filters) (subs : List FSTree) :
    (keptTrees fl subs).Pairwise (fun a b => a.name ≤ b.name) := by
  unfold keptTrees
  exact pairwise_sortTrees _

mutual

theorem refT_name (tf : Node → Str) (fl : Filters) (rd : Nat)
    (path : List String) (myPfx : Str) (t : FSTree) :
    ∀ n ∈ (refT tf fl rd path myPfx t).flat, n.name = lastName n.path := by
  rw [refT_eq, NTree.flat]
  intro n hn
  rcases List.mem_cons.mp hn with h | h
  · rw [h]
    rfl
  · exact refF_name tf fl rd path myPfx (filter_files fl t.files)
      (keptTrees fl t.subdirs) n h
termination_by sizeOf t
decreasing_by
  simp_wf
  have h1 := sizeOf_keptTrees fl t.subdirs
  have h2 := sizeOf_subdirs_lt t
  omega

theorem refF_name (tf : Node → Str) (fl : Filters) (rd : Nat)
    (pp : List String) (ppfx : Str) (pfiles : List String) (cs : List FSTree) :
    ∀ n ∈ flatF (refF tf fl rd pp ppfx pfiles cs), n.name = lastName n.path := by
  match cs with
  | [] =>
      rw [refF]
      intro n hn
      simp [flatF] at hn
  | c :: cs2 =>
      rw [refF_cons, flatF]
      intro n hn
      rcases List.mem_append.mp hn with h | h
      · exact refT_name tf fl rd (pp ++ [c.name]) _ c n h
      · exact refF_name tf fl rd pp ppfx pfiles cs2 n h
termination_by sizeOf cs
decreasing_by
  all_goals simp_wf
  all_goals omega

end

theorem refF_path (tf : Node → Str) (fl : Filters) (rd : Nat)
    (pp : List String) (ppfx : Str) (pfiles : List String) (cs : List FSTree) :
    ∀ n ∈ flatF (refF tf fl rd pp ppfx pfiles cs),
      ∃ c ∈ cs, ∃ r, n.path = (pp ++ [c.name]) ++ r := by
  intro n hn
  have hmem : n.path ∈ (flatF (refF tf fl rd pp ppfx pfiles cs)).map
      (fun n => n.path) := List.mem_map_of_mem _ hn
  rw [refF_paths_eq_popF] at hmem
  rcases List.mem_map.mp hmem with ⟨m, hm, hmp⟩
  rcases flatF_popF_path fl rd pp cs m hm with ⟨c, hc, r, hr⟩
  exact ⟨c, hc, r, by rw [← hmp, hr]⟩

theorem refT_path (tf : Node → Str) (fl : Filters) (rd : Nat)
    (pp : List String) (myPfx : Str) (t : FSTree) :
    ∀ n ∈ (refT tf fl rd pp myPfx t).flat, ∃ r, n.path = pp ++ r := by
  rw [refT_eq, NTree.flat]
  intro n hn
  rcases List.mem_cons.mp hn with h | h
  · exact ⟨[], by rw [h]; simp [refRec]⟩
  · rcases refF_path tf fl rd pp myPfx _ _ n h with ⟨c, _, r, hr⟩
    exact ⟨[c.name] ++ r, by rw [hr]; simp⟩

theorem refF_path_len (tf : Node → Str) (fl : Filters) (rd : Nat)
    (pp : List String) (ppfx : Str) (pfiles : List String) (cs : List FSTree) :
    ∀ n ∈ flatF (refF tf fl rd pp ppfx pfiles cs), pp.length < n.path.length := by
  intro n hn
  rcases refF_path tf fl rd pp ppfx pfiles cs n hn with ⟨c, _, r, hr⟩
  rw [hr]
  simp

theorem refT_root_unique (tf : Node → Str) (fl : Filters) (rd : Nat)
    (pp : List String) (myPfx : Str) (t : FSTree) :
    ∀ n ∈ (refT tf fl rd pp myPfx t).flat, n.path = pp →
      n = refRec fl rd pp myPfx t := by
  rw [refT_eq, NTree.flat]
  intro n hn hp
  rcases List.mem_cons.mp hn with h | h
  · exact h
  · have := refF_path_len tf fl rd pp myPfx _ _ n h
    rw [hp] at this
    omega

theorem refF_root_mem (tf : Node → Str) (fl : Filters) (rd : Nat)
    (pp : List String) (ppfx : Str) (pfiles : List String) (cs : List FSTree) :
    ∀ d ∈ cs, ∃ s ∈ flatF (refF tf fl rd pp ppfx pfiles cs),
      s.path = pp ++ [d.name] := by
  induction cs with
  | nil => simp
  | cons c cs2 ih =>
      intro d hd
      rw [refF_cons, flatF]
      rcases List.mem_cons.mp hd with h | h
      · refine ⟨refRec fl rd (pp ++ [c.name])
            (tf (parentRec rd pp ppfx pfiles (cs2.map FSTree.name))) c,
          ?_, by rw [h]; simp [refRec]⟩
        apply List.mem_append_left
        rw [refT_eq, NTree.flat]
        exact List.mem_cons_self _ _
      · rcases ih d h with ⟨s, hs, hsp⟩
        exact ⟨s, List.mem_append_right _ hs, hsp⟩

theorem parentPath_ne_self {pp : List String} (h : pp ≠ []) :
    parentPath pp ≠ pp := by
  intro heq
  have := congrArg List.length heq
  unfold parentPath at this
  rw [List.length_dropLast] at this
  have : 0 < pp.length := List.length_pos.mpr h
  omega

theorem refF_c2_root (fl : Filters) (rd : Nat) (pp : List String) (ppfx : Str)
    (pfiles : List String) (cs : List FSTree)
    (hsort : cs.Pairwise (fun a b => a.name ≤ b.name))
    (hnd : (cs.map FSTree.name).Nodup)
    (hg : goodPfx ppfx) :
    ∀ c ∈ flatF (refF (transform_pfx SymbolU) fl rd pp ppfx pfiles cs),
      parentPath c.path = pp →
        c.path = pp ++ [c.name] ∧
        c.pfx = transform_trailing_pfx SymbolU ppfx ++
          (if (∃ d ∈ cs, c.name < d.name) ∨ pfiles ≠ []
            then SymbolU.BRANCH else SymbolU.FINAL) := by
  induction cs with
  | nil =>
      rw [refF]
      intro c hc
      simp [flatF] at hc
  | cons ct cs2 ih =>
      rw [refF_cons, flatF]
      intro c hc hpar
      rcases List.pairwise_cons.mp hsort with ⟨hhead, htail⟩
      rw [List.map_cons, List.nodup_cons] at hnd
      rcases List.mem_append.mp hc with h | h
      · rcases refT_path _ fl rd _ _ ct c h with ⟨r, hr⟩
        have hr0 : r = [] := by
          have hl := congrArg List.length hpar
          unfold parentPath at hl
          rw [hr, List.length_dropLast] at hl
          simp only [List.length_append, List.length_singleton] at hl
          exact List.length_eq_zero.mp (by omega)
        rw [hr0, List.append_nil] at hr
        have hcr := refT_root_unique _ fl rd _ _ ct c h hr
        have hname : c.name = ct.name := by
          rw [hcr]
          show lastName (pp ++ [ct.name]) = ct.name
          exact lastName_append_one pp ct.name
        constructor
        · rw [hname, hr]
        · have hpfx : c.pfx = transform_pfx SymbolU
              (parentRec rd pp ppfx pfiles (cs2.map FSTree.name)) := by
            rw [hcr]
            rfl
          have hgood : goodPfx
              (parentRec rd pp ppfx pfiles (cs2.map FSTree.name)).pfx := hg
          rw [hpfx, transform_spec_eq hgood]
          unfold transform_pfx_spec
          simp only [parentRec]
          have hiff : (cs2.map FSTree.name ≠ [] ∨ pfiles ≠ []) ↔
              ((∃ d ∈ ct :: cs2, c.name < d.name) ∨ pfiles ≠ []) := by
            constructor
            · rintro (hne | hp)
              · cases cs2 with
                | nil => simp at hne
                | cons d0 ds =>
                    left
                    refine ⟨d0, List.mem_cons_of_mem _ (List.mem_cons_self _ _), ?_⟩
                    have hle : ct.name ≤ d0.name := hhead d0 (List.mem_cons_self _ _)
                    have hne2 : ct.name ≠ d0.name := by
                      intro he
                      exact hnd.1 (by rw [he]; exact List.mem_map_of_mem _ (List.mem_cons_self _ _))
                    rw [hname]
                    exact lt_of_le_of_ne hle hne2
              · right; exact hp
            · rintro (⟨d, hd, hlt⟩ | hp)
              · left
                rcases List.mem_cons.mp hd with he | he
                · exfalso
                  rw [hname, he] at hlt
                  exact lt_irrefl _ hlt
                · intro hnil
                  rw [List.map_eq_nil_iff] at hnil
                  rw [hnil] at he
                  simp at he
              · right; exact hp
          rw [if_congr hiff rfl rfl]
      · rcases ih htail hnd.2 c h hpar with ⟨hpath, hpfx⟩
        refine ⟨hpath, ?_⟩
        rw [hpfx]
        have hiff2 : ((∃ d ∈ cs2, c.name < d.name) ∨ pfiles ≠ []) ↔
            ((∃ d ∈ ct :: cs2, c.name < d.name) ∨ pfiles ≠ []) := by
          constructor
          · rintro (⟨d, hd, hlt⟩ | hp)
            · exact Or.inl ⟨d, List.mem_cons_of_mem _ hd, hlt⟩
            · exact Or.inr hp
          · rintro (⟨d, hd, hlt⟩ | hp)
            · rcases List.mem_cons.mp hd with he | he
              · exfalso
                rcases refF_path _ fl rd pp ppfx pfiles cs2 c h with ⟨d0, hd0, r, hrr⟩
                have heq : pp ++ [c.name] = (pp ++ [d0.name]) ++ r := by
                  rw [← hpath, ← hrr]
                have hrr0 : r = [] := by
                  have hl := congrArg List.length heq
                  simp only [List.length_append, List.length_singleton] at hl
                  exact List.length_eq_zero.mp (by omega)
                rw [hrr0, List.append_nil] at heq
                have hcn : c.name = d0.name := path_disc heq
                have hle : ct.name ≤ d0.name := hhead d0 hd0
                rw [he] at hlt
                rw [hcn] at hlt
                exact absurd hle (not_le_of_lt hlt)
              · exact Or.inl ⟨d, he, hlt⟩
            · exact Or.inr hp
        rw [if_congr hiff2 rfl rfl]

theorem parentPath_append (q : List String) {r : List String} (h : r ≠ []) :
    parentPath (q ++ r) = q ++ parentPath r := by
  unfold parentPath
  exact List.dropLast_append_of_ne_nil q h

mutual

theorem refT_c2 (fl : Filters) (rd : Nat) (pp : List String) (myPfx : Str)
    (t : FSTree) (hpp : pp ≠ []) (hu : uniqT t = true) (hg : goodPfx myPfx) :
    ∀ c ∈ (refT (transform_pfx SymbolU) fl rd pp myPfx t).flat, c.path ≠ pp →
      ∃ p ∈ (refT (transform_pfx SymbolU) fl rd pp myPfx t).flat,
        p.path = parentPath c.path ∧
        c.pfx = transform_trailing_pfx SymbolU p.pfx ++
          (if (∃ s ∈ (refT (transform_pfx SymbolU) fl rd pp myPfx t).flat,
                parentPath s.path = parentPath c.path ∧ c.name < s.name) ∨
              p.files ≠ []
            then SymbolU.BRANCH else SymbolU.FINAL) := by
  rw [refT_eq, NTree.flat]
  intro c hc hcp
  rcases List.mem_cons.mp hc with h | h
  · exfalso
    apply hcp
    rw [h]
    rfl
  · by_cases hpar : parentPath c.path = pp
    · rcases refF_c2_root fl rd pp myPfx (filter_files fl t.files)
          (keptTrees fl t.subdirs) (pairwise_keptTrees fl t.subdirs)
          (keptTrees_names_nodup (uniqT_parts hu).1) hg c h hpar with ⟨hcpath, hcpfx⟩
      refine ⟨refRec fl rd pp myPfx t, List.mem_cons_self _ _, ?_, ?_⟩
      · rw [hpar]
        rfl
      · have hpr : (refRec fl rd pp myPfx t).pfx = myPfx := rfl
        have hfr : (refRec fl rd pp myPfx t).files = filter_files fl t.files := rfl
        rw [hpr, hfr, hpar, hcpfx]
        have hiff : ((∃ d ∈ keptTrees fl t.subdirs, c.name < d.name) ∨
              filter_files fl t.files ≠ []) ↔
            ((∃ s ∈ refRec fl rd pp myPfx t ::
                  flatF (refF (transform_pfx SymbolU) fl rd pp myPfx
                    (filter_files fl t.files) (keptTrees fl t.subdirs)),
                parentPath s.path = pp ∧ c.name < s.name) ∨
              filter_files fl t.files ≠ []) := by
          constructor
          · rintro (⟨d, hd, hlt⟩ | hp)
            · left
              rcases refF_root_mem (transform_pfx SymbolU) fl rd pp myPfx
                  (filter_files fl t.files) (keptTrees fl t.subdirs) d hd with ⟨s, hs, hsp⟩
              refine ⟨s, List.mem_cons_of_mem _ hs, ?_, ?_⟩
              · rw [hsp]
                exact parentPath_append_one pp d.name
              · have hsn : s.name = lastName s.path :=
                  refF_name _ fl rd pp myPfx _ _ s hs
                rw [hsn, hsp, lastName_append_one]
                exact hlt
            · right
              exact hp
          · rintro (⟨s, hs, hsp, hlt⟩ | hp)
            · left
              rcases List.mem_cons.mp hs with hh | hh
              · exfalso
                have hroot : parentPath pp = pp := by
                  rw [hh] at hsp
                  exact hsp
                exact parentPath_ne_self hpp hroot
              · rcases refF_path _ fl rd pp myPfx _ _ s hh with ⟨d, hd, r, hr⟩
                have hr0 : r = [] := by
                  have hl := congrArg List.length hsp
                  rw [hr] at hl
                  unfold parentPath at hl
                  rw [List.length_dropLast] at hl
                  simp only [List.length_append, List.length_singleton] at hl
                  exact List.length_eq_zero.mp (by omega)
                rw [hr0, List.append_nil] at hr
                have hsn : s.name = d.name := by
                  have hlast := refF_name (transform_pfx SymbolU) fl rd pp myPfx
                    (filter_files fl t.files) (keptTrees fl t.subdirs) s hh
                  rw [hlast, hr, lastName_append_one]
                exact ⟨d, hd, by rw [← hsn]; exact hlt⟩
            · right
              exact hp
        rw [if_congr hiff rfl rfl]
    · rcases refF_c2_deep fl rd pp myPfx (filter_files fl t.files)
          (keptTrees fl t.subdirs) hpp hg (keptTrees_names_nodup (uniqT_parts hu).1)
          (fun x hx => keptTrees_uniq (uniqT_parts hu).2 hx) c h hpar
        with ⟨p, hpmem, hppath, hppfx⟩
      refine ⟨p, List.mem_cons_of_mem _ hpmem, hppath, ?_⟩
      rw [hppfx]
      have hiff : ((∃ s ∈ flatF (refF (transform_pfx SymbolU) fl rd pp myPfx
              (filter_files fl t.files) (keptTrees fl t.subdirs)),
            parentPath s.path = parentPath c.path ∧ c.name < s.name) ∨
            p.files ≠ []) ↔
          ((∃ s ∈ refRec fl rd pp myPfx t ::
                flatF (refF (transform_pfx SymbolU) fl rd pp myPfx
                  (filter_files fl t.files) (keptTrees fl t.subdirs)),
              parentPath s.path = parentPath c.path ∧ c.name < s.name) ∨
            p.files ≠ []) := by
        constructor
        · rintro (⟨s, hs, hsc⟩ | hp)
          · exact Or.inl ⟨s, List.mem_cons_of_mem _ hs, hsc⟩
          · exact Or.inr hp
        · rintro (⟨s, hs, hsp, hlt⟩ | hp)
          · left
            rcases List.mem_cons.mp hs with hh | hh
            · exfalso
              rcases refF_path _ fl rd pp myPfx _ _ c h with ⟨d, hd, r, hr⟩
              have hrne : r ≠ [] := by
                intro h0
                apply hpar
                rw [hr, h0, List.append_nil]
                exact parentPath_append_one pp d.name
              have hsl : s.path = pp := by
                rw [hh]
                rfl
              have hl := congrArg List.length hsp
              rw [hsl, hr] at hl
              unfold parentPath at hl
              rw [List.length_dropLast, List.length_dropLast] at hl
              simp only [List.length_append, List.length_singleton] at hl
              have hrpos : 0 < r.length := List.length_pos.mpr hrne
              have hppos : 0 < pp.length := List.length_pos.mpr hpp
              omega
            · exact ⟨s, hh, hsp, hlt⟩
          · right
            exact hp
      rw [if_congr hiff rfl rfl]
termination_by sizeOf t
decreasing_by
  all_goals simp_wf
  all_goals
    have h1 := sizeOf_keptTrees fl t.subdirs
    have h2 := sizeOf_subdirs_lt t
    omega

theorem refF_c2_deep (fl : Filters) (rd : Nat) (pp : List String) (ppfx : Str)
    (pfiles : List String) (cs : List FSTree) (hpp : pp ≠ [])
    (hg : goodPfx ppfx) :
    (cs.map FSTree.name).Nodup → (∀ x ∈ cs, uniqT x = true) →
    ∀ c ∈ flatF (refF (transform_pfx SymbolU) fl rd pp ppfx pfiles cs),
      parentPath c.path ≠ pp →
        ∃ p ∈ flatF (refF (transform_pfx SymbolU) fl rd pp ppfx pfiles cs),
          p.path = parentPath c.path ∧
          c.pfx = transform_trailing_pfx SymbolU p.pfx ++
            (if (∃ s ∈ flatF (refF (transform_pfx SymbolU) fl rd pp ppfx pfiles cs),
                  parentPath s.path = parentPath c.path ∧ c.name < s.name) ∨
                p.files ≠ []
              then SymbolU.BRANCH else SymbolU.FINAL) := by
  match cs with
  | [] =>
      intro hnd hu
      rw [refF]
      intro c hc
      simp [flatF] at hc
  | ct :: cs2 =>
      intro hnd hu
      rw [refF_cons, flatF]
      intro c hc hpar
      rw [List.map_cons, List.nodup_cons] at hnd
      rcases List.mem_append.mp hc with h | h
      · have hcne : c.path ≠ pp ++ [ct.name] := by
          intro h0
          apply hpar
          rw [h0]
          exact parentPath_append_one pp ct.name
        have hgood2 : goodPfx (transform_pfx SymbolU
            (parentRec rd pp ppfx pfiles (cs2.map FSTree.name))) := by
          have hgp : goodPfx (parentRec rd pp ppfx pfiles (cs2.map FSTree.name)).pfx := hg
          exact good_step hgp
        rcases refT_c2 fl rd (pp ++ [ct.name])
            (transform_pfx SymbolU (parentRec rd pp ppfx pfiles (cs2.map FSTree.name))) ct
            (by simp) (hu ct (List.mem_cons_self _ _)) hgood2 c h hcne
          with ⟨p, hpmem, hppath, hppfx⟩
        refine ⟨p, List.mem_append_left _ hpmem, hppath, ?_⟩
        rw [hppfx]
        rcases refT_path _ fl rd _ _ ct c h with ⟨r, hr⟩
        have hrne : r ≠ [] := by
          intro h0
          apply hcne
          rw [hr, h0, List.append_nil]
        have hpc : parentPath c.path = (pp ++ [ct.name]) ++ parentPath r := by
          rw [hr]
          exact parentPath_append _ hrne
        have hiff : ((∃ s ∈ (refT (transform_pfx SymbolU) fl rd (pp ++ [ct.name])
                (transform_pfx SymbolU (parentRec rd pp ppfx pfiles (cs2.map FSTree.name))) ct).flat,
              parentPath s.path = parentPath c.path ∧ c.name < s.name) ∨ p.files ≠ []) ↔
            ((∃ s ∈ (refT (transform_pfx SymbolU) fl rd (pp ++ [ct.name])
                  (transform_pfx SymbolU (parentRec rd pp ppfx pfiles (cs2.map FSTree.name))) ct).flat ++
                flatF (refF (transform_pfx SymbolU) fl rd pp ppfx pfiles cs2),
              parentPath s.path = parentPath c.path ∧ c.name < s.name) ∨ p.files ≠ []) := by
          constructor
          · rintro (⟨s, hs, hsc⟩ | hp)
            · exact Or.inl ⟨s, List.mem_append_left _ hs, hsc⟩
            · exact Or.inr hp
          · rintro (⟨s, hs, hsp, hlt⟩ | hp)
            · left
              rcases List.mem_append.mp hs with hh | hh
              · exact ⟨s, hh, hsp, hlt⟩
              · exfalso
                rcases refF_path _ fl rd pp ppfx pfiles cs2 s hh with ⟨d, hd, r2, hr2⟩
                rcases List.eq_nil_or_concat r2 with h20 | ⟨r2h, x, h2c⟩
                · rw [h20, List.append_nil] at hr2
                  have hsp2 : parentPath s.path = pp := by
                    rw [hr2]
                    exact parentPath_append_one pp d.name
                  rw [hsp2, hpc] at hsp
                  have hl := congrArg List.length hsp
                  simp only [List.length_append, List.length_singleton] at hl
                  omega
                · have h2ne : r2 ≠ [] := by
                    rw [h2c, List.concat_eq_append]
                    simp
                  have hps : parentPath s.path = (pp ++ [d.name]) ++ parentPath r2 := by
                    rw [hr2]
                    exact parentPath_append _ h2ne
                  rw [hps, hpc] at hsp
                  simp only [List.append_assoc, List.singleton_append] at hsp
                  have hdn : d.name = ct.name := path_disc hsp
                  exact hnd.1 (by rw [← hdn]; exact List.mem_map_of_mem _ hd)
            · right
              exact hp
        rw [if_congr hiff rfl rfl]
      · rcases refF_c2_deep fl rd pp ppfx pfiles cs2 hpp hg hnd.2
            (fun x hx => hu x (List.mem_cons_of_mem _ hx)) c h hpar
          with ⟨p, hpmem, hppath, hppfx⟩
        refine ⟨p, List.mem_append_right _ hpmem, hppath, ?_⟩
        rw [hppfx]
        rcases refF_path _ fl rd pp ppfx pfiles cs2 c h with ⟨d0, hd0, r, hr⟩
        have hrne : r ≠ [] := by
          intro h0
          apply hpar
          rw [hr, h0, List.append_nil]
          exact parentPath_append_one pp d0.name
        have hpc : parentPath c.path = (pp ++ [d0.name]) ++ parentPath r := by
          rw [hr]
          exact parentPath_append _ hrne
        have hiff : ((∃ s ∈ flatF (refF (transform_pfx SymbolU) fl rd pp ppfx pfiles cs2),
              parentPath s.path = parentPath c.path ∧ c.name < s.name) ∨ p.files ≠ []) ↔
            ((∃ s ∈ (refT (transform_pfx SymbolU) fl rd (pp ++ [ct.name])
                  (transform_pfx SymbolU (parentRec rd pp ppfx pfiles (cs2.map FSTree.name))) ct).flat ++
                flatF (refF (transform_pfx SymbolU) fl rd pp ppfx pfiles cs2),
              parentPath s.path = parentPath c.path ∧ c.name < s.name) ∨ p.files ≠ []) := by
          constructor
          · rintro (⟨s, hs, hsc⟩ | hp)
            · exact Or.inl ⟨s, List.mem_append_right _ hs, hsc⟩
            · exact Or.inr hp
          · rintro (⟨s, hs, hsp, hlt⟩ | hp)
            · left
              rcases List.mem_append.mp hs with hh | hh
              · exfalso
                rcases refT_path _ fl rd _ _ ct s hh with ⟨r2, hr2⟩
                rcases List.eq_nil_or_concat r2 with h20 | ⟨r2h, x, h2c⟩
                · rw [h20, List.append_nil] at hr2
                  have hsp2 : parentPath s.path = pp := by
                    rw [hr2]
                    exact parentPath_append_one pp ct.name
                  rw [hsp2, hpc] at hsp
                  have hl := congrArg List.length hsp
                  simp only [List.length_append, List.length_singleton] at hl
                  omega
                · have h2ne : r2 ≠ [] := by
                    rw [h2c, List.concat_eq_append]
                    simp
                  have hps : parentPath s.path = (pp ++ [ct.name]) ++ parentPath r2 := by
                    rw [hr2]
                    exact parentPath_append _ h2ne
                  rw [hps, hpc] at hsp
                  simp only [List.append_assoc, List.singleton_append] at hsp
                  have hdn : ct.name = d0.name := path_disc hsp
                  exact hnd.1 (by rw [hdn]; exact List.mem_map_of_mem _ hd0)
              · exact ⟨s, hh, hsp, hlt⟩
            · right
              exact hp
        rw [if_congr hiff rfl rfl]
termination_by sizeOf cs
decreasing_by
  all_goals simp_wf
  all_goals omega

end

theorem pairwise_insertStr {a : String} {l : List String}
    (h : l.Pairwise (fun x y => x ≤ y)) :
    (insertStr a l).Pairwise (fun x y => x ≤ y) := by
  induction l with
  | nil => simp [insertStr]
  | cons b bs ih =>
      rw [insertStr]
      rcases List.pairwise_cons.mp h with ⟨hb, hbs⟩
      by_cases hc : a ≤ b
      · rw [if_pos hc]
        rw [List.pairwise_cons]
        refine ⟨?_, h⟩
        intro x hx
        rcases List.mem_cons.mp hx with hh | hh
        · rw [hh]; exact hc
        · exact le_trans hc (hb x hh)
      · rw [if_neg hc]
        rw [List.pairwise_cons]
        refine ⟨?_, ih hbs⟩
        intro x hx
        rcases List.mem_cons.mp ((insertStr_perm a bs).mem_iff.mp hx) with hh | hh
        · rw [hh]
          exact le_of_not_le hc
        · exact hb x hh

theorem pairwise_sortStrs (l : List String) :
    (sortStrs l).Pairwise (fun x y => x ≤ y) := by
  induction l with
  | nil => simp [sortStrs]
  | cons a as ih =>
      rw [sortStrs]
      exact pairwise_insertStr ih

theorem filter_files_pairwise (fl : Filters) (files : List String) :
    (filter_files fl files).Pairwise (fun x y => x ≤ y) := by
  unfold filter_files
  exact pairwise_sortStrs _

mutual

theorem refT_files_sorted (tf : Node → Str) (fl : Filters) (rd : Nat)
    (path : List String) (myPfx : Str) (t : FSTree) :
    ∀ n ∈ (refT tf fl rd path myPfx t).flat,
      n.files.Pairwise (fun x y => x ≤ y) := by
  rw [refT_eq, NTree.flat]
  intro n hn
  rcases List.mem_cons.mp hn with h | h
  · rw [h]
    exact filter_files_pairwise fl t.files
  · exact refF_files_sorted tf fl rd path myPfx (filter_files fl t.files)
      (keptTrees fl t.subdirs) n h
termination_by sizeOf t
decreasing_by
  simp_wf
  have h1 := sizeOf_keptTrees fl t.subdirs
  have h2 := sizeOf_subdirs_lt t
  omega

theorem refF_files_sorted (tf : Node → Str) (fl : Filters) (rd : Nat)
    (pp : List String) (ppfx : Str) (pfiles : List String) (cs : List FSTree) :
    ∀ n ∈ flatF (refF tf fl rd pp ppfx pfiles cs),
      n.files.Pairwise (fun x y => x ≤ y) := by
  match cs with
  | [] =>
      rw [refF]
      intro n hn
      simp [flatF] at hn
  | c :: cs2 =>
      rw [refF_cons, flatF]
      intro n hn
      rcases List.mem_append.mp hn with h | h
      · exact refT_files_sorted tf fl rd (pp ++ [c.name]) _ c n h
      · exact refF_files_sorted tf fl rd pp ppfx pfiles cs2 n h
termination_by sizeOf cs
decreasing_by
  all_goals simp_wf
  all_goals omega

end

mutual

/-- Erasing the prefixes, the reference record tree does not depend on the
prefix-derivation function or the starting prefix: the structure (paths,
worklists, files, depths, names) is fixed by the walk alone. -/
theorem refT_erase (tf1 tf2 : Node → Str) (fl : Filters) (rd : Nat)
    (path : List String) (myPfx1 myPfx2 : Str) (t : FSTree) :
    ((refT tf1 fl rd path myPfx1 t).flat).map (fun n => setPfx n []) =
      ((refT tf2 fl rd path myPfx2 t).flat).map (fun n => setPfx n []) := by
  rw [refT_eq, refT_eq, NTree.flat, NTree.flat, List.map_cons, List.map_cons]
  rw [refF_erase tf1 tf2 fl rd path myPfx1 myPfx2 (filter_files fl t.files)
    (keptTrees fl t.subdirs)]
  rfl
termination_by sizeOf t
decreasing_by
  simp_wf
  have h1 := sizeOf_keptTrees fl t.subdirs
  have h2 := sizeOf_subdirs_lt t
  omega

theorem refF_erase (tf1 tf2 : Node → Str) (fl : Filters) (rd : Nat)
    (pp : List String) (ppfx1 ppfx2 : Str) (pfiles : List String)
    (cs : List FSTree) :
    (flatF (refF tf1 fl rd pp ppfx1 pfiles cs)).map (fun n => setPfx n []) =
      (flatF (refF tf2 fl rd pp ppfx2 pfiles cs)).map (fun n => setPfx n []) := by
  match cs with
  | [] =>
      rw [refF, refF]
  | c :: cs2 =>
      rw [refF_cons, refF_cons, flatF, flatF, List.map_append, List.map_append]
      rw [refT_erase tf1 tf2 fl rd (pp ++ [c.name]) _ _ c]
      rw [refF_erase tf1 tf2 fl rd pp ppfx1 ppfx2 pfiles cs2]
termination_by sizeOf cs
decreasing_by
  all_goals simp_wf
  all_goals omega

end

theorem symLen4A : symLen4 AsciiSymbols := by
  constructor
  · decide
  constructor
  · decide
  constructor
  · decide
  · decide

theorem uniqW : uniqT tW = true := by
  simp [tW, uniqT, uniqF]

theorem uniqCh : uniqT tCh = true := by
  simp [tCh, uniqT, uniqF]

theorem uniqTF : uniqT tF = true := by
  simp [tF, uniqT, uniqF]

theorem popW : populate noFilters ["r"] tW = [⟨["r"], [], [], 0, [], "r"⟩] := by
  simp only [populate, popT, popF, keptTrees, sortTrees, insertTree, filter_dirs,
    filter_files, sortStrs, insertStr, do_filter, keepItem, noFilters,
    FSTree.subdirs, FSTree.files, FSTree.name, NTree.flat, flatF, lastName, tW]
  rfl

theorem popCh : populate noFilters ["r"] tCh =
    [⟨["r"], ["a"], [], 0, [], "r"⟩,
     ⟨["r", "a"], ["b"], [], 1, [], "a"⟩,
     ⟨["r", "a", "b"], [], [], 2, [], "b"⟩] := by
  simp only [populate, popT, popF, keptTrees, sortTrees, insertTree, filter_dirs,
    filter_files, sortStrs, insertStr, do_filter, keepItem, noFilters,
    FSTree.subdirs, FSTree.files, FSTree.name, NTree.flat, flatF, lastName, tCh]
  rfl

theorem popTF : populate noFilters ["r"] tF =
    [⟨["r"], [], ["a.txt", "b.txt"], 0, [], "r"⟩] := by
  simp only [populate, popT, popF, keptTrees, sortTrees, insertTree, filter_dirs,
    filter_files, sortStrs, insertStr, do_filter, keepItem, noFilters,
    FSTree.subdirs, FSTree.files, FSTree.name, NTree.flat, flatF, lastName, tF]
  rw [if_neg (by rw [String.le_iff_toList_le]; decide :
    ¬ (("b.txt" : String) ≤ "a.txt"))]
  rfl

theorem pfxW : prefix_nodes SymbolU noFilters ["r"] tW =
    Except.ok [⟨["r"], [], [], 0, [], "r"⟩] := by
  rw [prefix_nodes, popW]
  rfl

theorem pfxCh : prefix_nodes SymbolU noFilters ["r"] tCh =
    Except.ok [⟨["r"], [], [], 0, [], "r"⟩,
               ⟨["r", "a"], [], [], 1, "└── ".toList, "a"⟩,
               ⟨["r", "a", "b"], [], [], 2, "    └── ".toList, "b"⟩] := by
  rw [prefix_nodes, popCh]
  rfl

theorem pfxF : prefix_nodes SymbolU noFilters ["r"] tF =
    Except.ok [⟨["r"], [], ["a.txt", "b.txt"], 0, [], "r"⟩] := by
  rw [prefix_nodes, popTF]
  rfl

/-- A successful prefix pass returns exactly the reference final records. -/
theorem prefNodes_ok {fl : Filters} {top : List String} {t : FSTree}
    {ns : List Node} (ht : top ≠ []) (hu : uniqT t = true)
    (hok : prefix_nodes SymbolU fl top t = Except.ok ns) :
    ns = (refT (transform_pfx SymbolU) fl top.length top [] t).flat := by
  rw [prefix_nodes] at hok
  rw [pfxLoop_populate (transform_pfx SymbolU) fl top t ht hu] at hok
  exact (Except.ok.inj hok).symm

/-- C1 (amended): `replace_leading_symbol` tests whether the prefix starts
with the match symbol, but when the test succeeds it replaces the final
`SYMBOL_LEN` characters with the new symbol: the rewrite lands on the
trailing segment, and everything before the last segment — including the
leading segment that was matched — is left unchanged. -/
theorem c1_leading_rewrite_hits_trailing (pfx new m : Str)
    (h4 : SYMBOL_LEN ≤ pfx.length) (hm : m.isPrefixOf pfx = true) :
    replace_leading_symbol pfx new m =
      pfx.take (pfx.length - SYMBOL_LEN) ++ new ∧
    (replace_leading_symbol pfx new m).take (pfx.length - SYMBOL_LEN) =
      pfx.take (pfx.length - SYMBOL_LEN) := by
  have he : replace_leading_symbol pfx new m =
      pfx.take (pfx.length - SYMBOL_LEN) ++ new := by
    unfold replace_leading_symbol
    rw [if_pos hm]
  refine ⟨he, ?_⟩
  rw [he]
  exact List.take_left' (by rw [List.length_take]; omega)

theorem c1_leading_rewrite_hits_trailing_witness :
    (SYMBOL_LEN ≤ ("├── └── ".toList : Str).length ∧
      (SymbolU.BRANCH).isPrefixOf ("├── └── ".toList) = true) ∧
    (replace_leading_symbol ("├── └── ".toList) SymbolU.CONTINUE SymbolU.BRANCH =
        ("├── └── ".toList).take (("├── └── ".toList).length - SYMBOL_LEN) ++
          SymbolU.CONTINUE ∧
      (replace_leading_symbol ("├── └── ".toList) SymbolU.CONTINUE
          SymbolU.BRANCH).take (("├── └── ".toList).length - SYMBOL_LEN) =
        ("├── └── ".toList).take (("├── └── ".toList).length - SYMBOL_LEN)) :=
  ⟨⟨by decide, by decide⟩,
    c1_leading_rewrite_hits_trailing ("├── └── ".toList) SymbolU.CONTINUE
      SymbolU.BRANCH (by decide) (by decide)⟩

/-- C1 counterexample: a trailing-transformed prefix that begins with
`CONTINUE` is not rewritten to begin with `BRANCH` — the full derivation
for such a parent still yields a `CONTINUE`-leading prefix — and on an
input where the leading test does fire (leading `BRANCH`), the change
lands on the trailing segment while the leading segment stays `BRANCH`. -/
theorem c1_counterexample :
    (transform_trailing_pfx SymbolU ("│   ├── ".toList)).take SYMBOL_LEN =
      SymbolU.CONTINUE ∧
    (transform_pfx SymbolU
        ⟨["r", "a", "b"], [], [], 2, "│   ├── ".toList, "b"⟩).take SYMBOL_LEN =
      SymbolU.CONTINUE ∧
    SymbolU.CONTINUE ≠ SymbolU.BRANCH ∧
    replace_leading_symbol ("├── └── ".toList) SymbolU.CONTINUE SymbolU.BRANCH =
      "├── ".toList ++ SymbolU.CONTINUE ∧
    ("├── ".toList ++ SymbolU.CONTINUE).take SYMBOL_LEN = SymbolU.BRANCH := by
  refine ⟨by decide, by decide, by decide, by decide, by decide⟩

/-- C2: in a successful render, the root record (path = top) has the empty
prefix, and every other record's prefix is its parent record's prefix with
the trailing connector rewritten (`transform_trailing_pfx`: BRANCH becomes
CONTINUE, FINAL becomes INDENT) followed by a connector for the node
itself: BRANCH when the parent's worklist still holds a child directory at
that moment — equivalently, by the sorted traversal order, some record
shares the parent and has a larger name — or the parent has files, else
FINAL. -/
theorem c2_child_connector (fl : Filters) (top : List String) (t : FSTree)
    (ns : List Node) (ht : top ≠ []) (hu : uniqT t = true)
    (hok : prefix_nodes SymbolU fl top t = Except.ok ns) :
    (∀ c ∈ ns, c.path = top → c.pfx = []) ∧
    (∀ c ∈ ns, c.path ≠ top →
      ∃ p ∈ ns, p.path = parentPath c.path ∧
        c.pfx = transform_trailing_pfx SymbolU p.pfx ++
          (if (∃ s ∈ ns, parentPath s.path = parentPath c.path ∧ c.name < s.name)
              ∨ p.files ≠ []
            then SymbolU.BRANCH else SymbolU.FINAL)) := by
  have hns := prefNodes_ok ht hu hok
  subst hns
  constructor
  · intro c hc hp
    rw [refT_root_unique _ fl top.length top [] t c hc hp]
    rfl
  · intro c hc hp
    exact refT_c2 fl top.length top [] t ht hu (Or.inl rfl) c hc hp

theorem c2_child_connector_witness :
    ((["r"] : List String) ≠ [] ∧ uniqT tW = true ∧
      prefix_nodes SymbolU noFilters ["r"] tW =
        Except.ok [⟨["r"], [], [], 0, [], "r"⟩]) ∧
    ((∀ c ∈ [(⟨["r"], [], [], 0, [], "r"⟩ : Node)],
        c.path = ["r"] → c.pfx = []) ∧
      (∀ c ∈ [(⟨["r"], [], [], 0, [], "r"⟩ : Node)], c.path ≠ ["r"] →
        ∃ p ∈ [(⟨["r"], [], [], 0, [], "r"⟩ : Node)],
          p.path = parentPath c.path ∧
          c.pfx = transform_trailing_pfx SymbolU p.pfx ++
            (if (∃ s ∈ [(⟨["r"], [], [], 0, [], "r"⟩ : Node)],
                  parentPath s.path = parentPath c.path ∧ c.name < s.name)
                ∨ p.files ≠ []
              then SymbolU.BRANCH else SymbolU.FINAL))) :=
  ⟨⟨by decide, uniqW, pfxW⟩,
    c2_child_connector noFilters ["r"] tW _ (by decide) uniqW pfxW⟩

/-- C3: serializing the prefixed records with the pending-files stack
produces exactly the recursive rendering in which every directory
contributes its own line, then all lines of its subdirectory subtrees in
order, then its own file lines (`NTree.lines`); in particular the before-
emission flush of deeper-or-equal pending directories and the final
LIFO flush place each directory's file lines after all of its
subdirectory subtrees. -/
theorem c3_serializer_flush_order (S : SymSet) (fl : Filters)
    (top : List String) (t : FSTree) (ns : List Node) (ht : top ≠ [])
    (hu : uniqT t = true)
    (hok : prefix_nodes SymbolU fl top t = Except.ok ns) :
    treeStr S ns =
      some (NTree.lines S
        (refT (transform_pfx SymbolU) fl top.length top [] t)) := by
  have hns := prefNodes_ok ht hu hok
  subst hns
  exact treeStr_lines S _ (depthOk_refT _ fl top.length top [] t le_rfl)

theorem c3_serializer_flush_order_witness :
    ((["r"] : List String) ≠ [] ∧ uniqT tW = true ∧
      prefix_nodes SymbolU noFilters ["r"] tW =
        Except.ok [⟨["r"], [], [], 0, [], "r"⟩]) ∧
    treeStr SymbolU [⟨["r"], [], [], 0, [], "r"⟩] =
      some (NTree.lines SymbolU
        (refT (transform_pfx SymbolU) noFilters (["r"] : List String).length
          ["r"] [] tW)) :=
  ⟨⟨by decide, uniqW, pfxW⟩,
    c3_serializer_flush_order SymbolU noFilters ["r"] tW _ (by decide) uniqW
      pfxW⟩

/-- C4: for every record of a successful render that owns at least one
kept file, emitting its file lines succeeds and appends, in the sorted
order of its file list, one line per file whose prefix is the directory's
own prefix with the trailing connector rewritten
(`transform_trailing_pfx`); every file but the last gets a BRANCH
connector and the last gets FINAL. -/
theorem c4_file_lines (S : SymSet) (fl : Filters) (top : List String)
    (t : FSTree) (ns : List Node) (ht : top ≠ []) (hu : uniqT t = true)
    (hok : prefix_nodes SymbolU fl top t = Except.ok ns) :
    ∀ n ∈ ns, n.files ≠ [] → ∀ out, ∃ last,
      n.files.getLast? = some last ∧
      append_file_lines S out n = some (out ++
        (n.files.dropLast.map
          (fun f => transform_trailing_pfx S n.pfx ++ S.BRANCH ++ f.toList) ++
        [transform_trailing_pfx S n.pfx ++ S.FINAL ++ last.toList])) ∧
      n.files.Pairwise (fun a b => a ≤ b) := by
  have hns := prefNodes_ok ht hu hok
  subst hns
  intro n hn hf out
  cases hl : n.files.getLast? with
  | none =>
      rw [List.getLast?_eq_none_iff] at hl
      exact absurd hl hf
  | some last =>
      refine ⟨last, rfl, ?_,
        refT_files_sorted _ fl top.length top [] t n hn⟩
      unfold append_file_lines
      rw [hl]
      simp only [List.append_assoc]

theorem c4_file_lines_witness :
    ((["r"] : List String) ≠ [] ∧ uniqT tF = true ∧
      prefix_nodes SymbolU noFilters ["r"] tF =
        Except.ok [⟨["r"], [], ["a.txt", "b.txt"], 0, [], "r"⟩] ∧
      (⟨["r"], [], ["a.txt", "b.txt"], 0, [], "r"⟩ : Node) ∈
        [(⟨["r"], [], ["a.txt", "b.txt"], 0, [], "r"⟩ : Node)] ∧
      (⟨["r"], [], ["a.txt", "b.txt"], 0, [], "r"⟩ : Node).files ≠ []) ∧
    (∃ last,
      (⟨["r"], [], ["a.txt", "b.txt"], 0, [], "r"⟩ : Node).files.getLast? =
        some last ∧
      append_file_lines SymbolU []
          (⟨["r"], [], ["a.txt", "b.txt"], 0, [], "r"⟩ : Node) = some ([] ++
        ((⟨["r"], [], ["a.txt", "b.txt"], 0, [], "r"⟩ : Node).files.dropLast.map
          (fun f => transform_trailing_pfx SymbolU
              (⟨["r"], [], ["a.txt", "b.txt"], 0, [], "r"⟩ : Node).pfx ++
            SymbolU.BRANCH ++ f.toList) ++
        [transform_trailing_pfx SymbolU
            (⟨["r"], [], ["a.txt", "b.txt"], 0, [], "r"⟩ : Node).pfx ++
          SymbolU.FINAL ++ last.toList])) ∧
      (⟨["r"], [], ["a.txt", "b.txt"], 0, [], "r"⟩ : Node).files.Pairwise
        (fun a b => a ≤ b)) :=
  ⟨⟨by decide, uniqTF, pfxF, by decide, by decide⟩,
    c4_file_lines SymbolU noFilters ["r"] tF _ (by decide) uniqTF pfxF
      ⟨["r"], [], ["a.txt", "b.txt"], 0, [], "r"⟩ (by decide) (by decide) []⟩

/-- C5: the walker has no depth cut-off at all — `Tree.populate` never
reads `TreeGenConfig.max_depth` (and the CLI stores the option into a
nonexistent `config.depth` attribute), so records are created at every
depth of the tree: on a three-level chain, records of depths 0, 1 and 2
all exist, whatever limit was configured. -/
theorem c5_depth_limit_ignored :
    (populate noFilters ["r"] tCh).map Node.depth = [0, 1, 2] := by
  rw [popCh]
  rfl

/-- C6 (amended): swapping the ASCII symbol set for the Unicode one
preserves the record list up to the prefix glyphs — same records
(paths, worklists, files, depths, names) once prefixes are erased, hence
the same line count — and both prefixes keep the fixed width of one
connector segment per depth level.  (The per-segment branch/final
classification is not preserved; see the counterexample.) -/
theorem c6_structure_preserved (fl : Filters) (top : List String) (t : FSTree)
    (ht : top ≠ []) (hu : uniqT t = true) :
    ∃ nsU nsA,
      prefix_nodes UnicodeSymbols fl top t = Except.ok nsU ∧
      prefix_nodes AsciiSymbols fl top t = Except.ok nsA ∧
      nsU.map (fun n => setPfx n []) = nsA.map (fun n => setPfx n []) ∧
      nsU.length = nsA.length ∧
      (∀ n ∈ nsU, n.pfx.length = SYMBOL_LEN * n.depth) ∧
      (∀ n ∈ nsA, n.pfx.length = SYMBOL_LEN * n.depth) := by
  refine ⟨(refT (transform_pfx UnicodeSymbols) fl top.length top [] t).flat,
    (refT (transform_pfx AsciiSymbols) fl top.length top [] t).flat,
    ?_, ?_, ?_, ?_, ?_, ?_⟩
  · rw [prefix_nodes]
    exact pfxLoop_populate _ fl top t ht hu
  · rw [prefix_nodes]
    exact pfxLoop_populate _ fl top t ht hu
  · exact refT_erase _ _ fl top.length top [] [] t
  · have hmap := congrArg List.length (refT_erase (transform_pfx UnicodeSymbols)
      (transform_pfx AsciiSymbols) fl top.length top [] [] t)
    simpa using hmap
  · exact refT_pfx_len UnicodeSymbols symLen4U fl top.length top [] t
      (by simp) le_rfl
  · exact refT_pfx_len AsciiSymbols symLen4A fl top.length top [] t
      (by simp) le_rfl

theorem c6_structure_preserved_witness :
    ((["r"] : List String) ≠ [] ∧ uniqT tW = true) ∧
    (∃ nsU nsA,
      prefix_nodes UnicodeSymbols noFilters ["r"] tW = Except.ok nsU ∧
      prefix_nodes AsciiSymbols noFilters ["r"] tW = Except.ok nsA ∧
      nsU.map (fun n => setPfx n []) = nsA.map (fun n => setPfx n []) ∧
      nsU.length = nsA.length ∧
      (∀ n ∈ nsU, n.pfx.length = SYMBOL_LEN * n.depth) ∧
      (∀ n ∈ nsA, n.pfx.length = SYMBOL_LEN * n.depth)) :=
  ⟨⟨by decide, uniqW⟩,
    c6_structure_preserved noFilters ["r"] tW (by decide) uniqW⟩

/-- C6 counterexample: on a three-deep chain the deepest record's first
connector segment is `INDENT` under the Unicode set but `CONTINUE` under
the ASCII set — because AsciiSymbols.BRANCH = AsciiSymbols.FINAL, the
trailing rewrite misclassifies a FINAL-terminated parent prefix — so the
substitution changes the continuation structure, not only the glyphs. -/
theorem c6_counterexample :
    prefix_nodes UnicodeSymbols noFilters ["r"] tCh =
      Except.ok [⟨["r"], [], [], 0, [], "r"⟩,
                 ⟨["r", "a"], [], [], 1, "└── ".toList, "a"⟩,
                 ⟨["r", "a", "b"], [], [], 2, "    └── ".toList, "b"⟩] ∧
    prefix_nodes AsciiSymbols noFilters ["r"] tCh =
      Except.ok [⟨["r"], [], [], 0, [], "r"⟩,
                 ⟨["r", "a"], [], [], 1, "+-- ".toList, "a"⟩,
                 ⟨["r", "a", "b"], [], [], 2, "|   +-- ".toList, "b"⟩] ∧
    ("    └── ".toList).take SYMBOL_LEN = UnicodeSymbols.INDENT ∧
    ("|   +-- ".toList).take SYMBOL_LEN = AsciiSymbols.CONTINUE ∧
    AsciiSymbols.CONTINUE ≠ AsciiSymbols.INDENT := by
  refine ⟨?_, ?_, by decide, by decide, by decide⟩
  · rw [prefix_nodes, popCh]
    rfl
  · rw [prefix_nodes, popCh]
    rfl

/-- C7: when a key other than the top directory has no parent record in
the visited map, the prefix pass stops at once with an error that names
the offending path (no silent recovery), while the top-of-tree record,
whose parent lookup also fails, is skipped and keeps its empty prefix. -/
theorem c7_missing_parent_aborts :
    (∀ (tf : Node → Str) (top p : List String) (st : List Node)
        (keys : List (List String)) (n : Node),
        nfind st p = some n → p ≠ top →
        nfind st (parentPath p) = none →
        pfxLoopGen tf top st (p :: keys) = Except.error (errMsg p)) ∧
    (∀ (fl : Filters) (top : List String) (t : FSTree) (ns : List Node),
        top ≠ [] → uniqT t = true →
        prefix_nodes SymbolU fl top t = Except.ok ns →
        ∀ c ∈ ns, c.path = top → c.pfx = []) := by
  constructor
  · intro tf top p st keys n hf hne hm
    exact pfxLoopGen_cons_err tf top st p keys hf hm hne
  · intro fl top t ns ht hu hok c hc hp
    have hns := prefNodes_ok ht hu hok
    subst hns
    rw [refT_root_unique _ fl top.length top [] t c hc hp]
    rfl

theorem c7_missing_parent_aborts_witness :
    (nfind [⟨["a", "b"], [], [], 1, [], "b"⟩] ["a", "b"] =
        some ⟨["a", "b"], [], [], 1, [], "b"⟩ ∧
      (["a", "b"] : List String) ≠ ["a"] ∧
      nfind [⟨["a", "b"], [], [], 1, [], "b"⟩] (parentPath ["a", "b"]) =
        none) ∧
    pfxLoopGen (transform_pfx SymbolU) ["a"]
      [⟨["a", "b"], [], [], 1, [], "b"⟩] [["a", "b"]] =
      Except.error (errMsg ["a", "b"]) :=
  ⟨⟨by decide, by decide, by decide⟩,
    c7_missing_parent_aborts.1 (transform_pfx SymbolU) ["a"] ["a", "b"]
      [⟨["a", "b"], [], [], 1, [], "b"⟩] [] ⟨["a", "b"], [], [], 1, [], "b"⟩
      (by decide) (by decide) (by decide)⟩

/-- C8: in a successful render every record's prefix length is exactly
`SYMBOL_LEN` characters — one connector segment — per depth level, and
the depth itself is the record's path segment count minus the top's, so
the root has depth 0 (and, by the first part, an empty prefix) and each
descent adds one segment. -/
theorem c8_prefix_length_matches_depth (fl : Filters) (top : List String)
    (t : FSTree) (ns : List Node) (ht : top ≠ []) (hu : uniqT t = true)
    (hok : prefix_nodes SymbolU fl top t = Except.ok ns) :
    ∀ n ∈ ns, n.pfx.length = SYMBOL_LEN * n.depth ∧
      n.depth = n.path.length - top.length := by
  have hns := prefNodes_ok ht hu hok
  subst hns
  intro n hn
  exact ⟨refT_pfx_len SymbolU symLen4U fl top.length top [] t (by simp)
      le_rfl n hn,
    refT_depth_path _ fl top.length top [] t n hn⟩

theorem c8_prefix_length_matches_depth_witness :
    ((["r"] : List String) ≠ [] ∧ uniqT tCh = true ∧
      prefix_nodes SymbolU noFilters ["r"] tCh =
        Except.ok [⟨["r"], [], [], 0, [], "r"⟩,
                   ⟨["r", "a"], [], [], 1, "└── ".toList, "a"⟩,
                   ⟨["r", "a", "b"], [], [], 2, "    └── ".toList, "b"⟩]) ∧
    (∀ n ∈ [(⟨["r"], [], [], 0, [], "r"⟩ : Node),
            ⟨["r", "a"], [], [], 1, "└── ".toList, "a"⟩,
            ⟨["r", "a", "b"], [], [], 2, "    └── ".toList, "b"⟩],
      n.pfx.length = SYMBOL_LEN * n.depth ∧
      n.depth = n.path.length - (["r"] : List String).length) :=
  ⟨⟨by decide, uniqCh, pfxCh⟩,
    c8_prefix_length_matches_depth noFilters ["r"] tCh _ (by decide) uniqCh
      pfxCh⟩

/-- C9: on every prefix the renderer actually produces, the trailing-
transformed string never begins with `BRANCH`, so the leading-symbol step
of the derivation returns its input unchanged; consequently the whole
prefix pass coincides with the simplified trailing-only derivation. -/
theorem c9_leading_step_noop (fl : Filters) (top : List String) (t : FSTree)
    (ht : top ≠ []) (hu : uniqT t = true) :
    prefix_nodes SymbolU fl top t = prefix_nodes_spec SymbolU fl top t ∧
    (∀ ns, prefix_nodes SymbolU fl top t = Except.ok ns →
      ∀ n ∈ ns,
        replace_leading_symbol (transform_trailing_pfx SymbolU n.pfx)
          SymbolU.CONTINUE SymbolU.BRANCH =
        transform_trailing_pfx SymbolU n.pfx) := by
  constructor
  · rw [prefix_nodes, prefix_nodes_spec]
    rw [pfxLoop_populate (transform_pfx SymbolU) fl top t ht hu,
      pfxLoop_populate (transform_pfx_spec SymbolU) fl top t ht hu]
    rw [refT_spec_eq fl top.length top [] t (Or.inl rfl)]
  · intro ns hok n hn
    have hns := prefNodes_ok ht hu hok
    subst hns
    exact lead_noop (refT_good fl top.length top [] t (Or.inl rfl) n hn)

theorem c9_leading_step_noop_witness :
    ((["r"] : List String) ≠ [] ∧ uniqT tW = true) ∧
    (prefix_nodes SymbolU noFilters ["r"] tW =
        prefix_nodes_spec SymbolU noFilters ["r"] tW ∧
      (∀ ns, prefix_nodes SymbolU noFilters ["r"] tW = Except.ok ns →
        ∀ n ∈ ns,
          replace_leading_symbol (transform_trailing_pfx SymbolU n.pfx)
            SymbolU.CONTINUE SymbolU.BRANCH =
          transform_trailing_pfx SymbolU n.pfx)) :=
  ⟨⟨by decide, uniqW⟩,
    c9_leading_step_noop noFilters ["r"] tW (by decide) uniqW⟩

/-- C10: the serializer, started with an empty pending stack, always
succeeds — every record it ever flushes was pushed with a non-empty file
list — and the abort branch of the file emitter fires exactly on an empty
file list, so it is unreachable during serialization. -/
theorem c10_no_empty_flush (S : SymSet) (nodes : List Node) :
    (∃ L, treeStr S nodes = some L) ∧
    (∀ out n, append_file_lines S out n = none ↔ n.files = []) := by
  constructor
  · unfold treeStr
    exact treeGo_total S nodes [] [] (by intro x hx; simp at hx)
  · intro out n
    unfold append_file_lines
    constructor
    · intro h
      cases hl : n.files.getLast? with
      | none => exact List.getLast?_eq_none_iff.mp hl
      | some last =>
          rw [hl] at h
          simp at h
    · intro h
      have hl : n.files.getLast? = none := by
        rw [h]
        rfl
      rw [hl]

theorem c10_no_empty_flush_witness :
    (∃ L, treeStr SymbolU [⟨["r"], [], ["f.txt"], 0, [], "r"⟩] = some L) ∧
    (∀ out n, append_file_lines SymbolU out n = none ↔ n.files = []) :=
  c10_no_empty_flush SymbolU [⟨["r"], [], ["f.txt"], 0, [], "r"⟩]
